import Mathlib

/-!
# Fly: ring-runner game logic (`script.js`)

A shallow embedding of the game logic of `script.js`: the drag handlers
(`onTouchStart`, `onTouchMove`, `onTouchEnd`), the per-frame `update`
(easing, banking, world offset, ring collision and recycling), and the
start-up code (`init`, `createAirplane`, `createRings`, `positionRing`).

Modelling conventions

* JavaScript numbers are exact rationals (`ℚ`); rounding of IEEE doubles is
  not modelled, except for the easing step, whose binary64 evaluation is
  `easeRounded roundDouble`.  `Math.PI` is the rational value of the double
  constant.
* The module-level variables of the script are the fields of `Game`.
* `Math.random()` pops the head of the stream `Game.rng`.
* `a.distanceTo(b) < r` is decided without a square root, by `distanceLt`
  (`distanceLt_iff_sqrt` shows it is the same test).
* Rendering, the DOM score text and the touch indicator are presentation
  only and are not part of the state.
-/

namespace Fly

/-! ## Data model -/

/-- The `x`, `y`, `z` of a `THREE.Vector3` (also used for Euler angles). -/
structure Vec3 where
  x : ℚ
  y : ℚ
  z : ℚ
  deriving DecidableEq

/-- The part of a ring's `THREE.Mesh` that the game logic reads or writes:
`position`, `rotation`, `geometry.parameters.radius` and the material colour. -/
structure Mesh where
  position : Vec3
  rotation : Vec3
  radius : ℚ
  color : Option ℕ
  deriving DecidableEq

/-- An entry of the `rings` array: `{ mesh, passed }`. -/
structure RingData where
  mesh : Mesh
  passed : Bool
  deriving DecidableEq

/-- The stream of values returned by successive calls of `Math.random()`. -/
abbrev Rand := ℕ → ℚ

/-- The module-level state of `script.js`. -/
structure Game where
  airplanePosition : Vec3
  airplaneRotation : Vec3
  airplaneTargetX : ℚ
  airplaneTargetY : ℚ
  scenePositionZ : ℚ
  cameraPosition : Vec3
  rings : List RingData
  score : ℤ
  touchStartX : ℚ
  touchStartY : ℚ
  isTouching : Bool
  rng : Rand

/-! ## Constants -/

/-- `const airplaneMoveSpeed = 0.05`. -/
def airplaneMoveSpeed : ℚ := 5 / 100

/-- `const forwardSpeed = 0.5`. -/
def forwardSpeed : ℚ := 5 / 10

/-- `const numberOfRings = 15`. -/
def numberOfRings : ℕ := 15

/-- `const ringSpawnDistance = -150`. -/
def ringSpawnDistance : ℚ := -150

/-- `const ringSpacing = 40`. -/
def ringSpacing : ℚ := 40

/-- `const sensitivityX = 0.03` of `onTouchMove`. -/
def sensitivityX : ℚ := 3 / 100

/-- `const sensitivityY = -0.04` of `onTouchMove`. -/
def sensitivityY : ℚ := -(4 / 100)

/-- The double `Math.PI`, as the rational it denotes. -/
def mathPI : ℚ := 884279719003555 / 281474976710656

/-- The table `ringColors` of `createRings`. -/
def ringColors : List ℕ := [0xff0000, 0x00ff00, 0x0000ff, 0xffff00, 0xffa500]

/-! ## Helpers standing for library calls -/

/-- Drop the first `k` draws of a random stream. -/
def Rand.drop (r : Rand) (k : ℕ) : Rand := fun n => r (n + k)

/-- Squared distance `a.distanceToSquared(b)`. -/
def distanceToSquared (a b : Vec3) : ℚ :=
  (a.x - b.x) * (a.x - b.x) + (a.y - b.y) * (a.y - b.y) + (a.z - b.z) * (a.z - b.z)

/-- The comparison `a.distanceTo(b) < r`: a square root is below `r` exactly
when `r` is positive and the squared distance is below `r * r`. -/
def distanceLt (a b : Vec3) (r : ℚ) : Prop :=
  0 < r ∧ distanceToSquared a b < r * r

instance (a b : Vec3) (r : ℚ) : Decidable (distanceLt a b r) := by
  unfold distanceLt; infer_instance

/-- `Math.max(lo, Math.min(hi, v))`, the clamping expression of `onTouchMove`. -/
def maxMin (lo hi v : ℚ) : ℚ := max lo (min hi v)

/-- Element `ringColors[i]` for a JavaScript index `i` (`undefined` off the table). -/
def colorAt (i : ℤ) : Option ℕ :=
  if i < 0 then none else ringColors[i.toNat]?

/-! ## Creating game objects -/

/-- `positionRing(ringMesh, initialZ)`: five draws of `Math.random()`. -/
def positionRing (ringMesh : Mesh) (initialZ : ℚ) (rnd : Rand) : Mesh × Rand :=
  ({ ringMesh with
      position := ⟨rnd 0 * 20 - 10, rnd 1 * 15 + 2, initialZ - 50⟩
      rotation := ⟨rnd 2 * mathPI * (1 / 10), rnd 3 * mathPI * (1 / 10),
                   rnd 4 * mathPI * (5 / 10)⟩ },
   rnd.drop 5)

/-- The loop of `createRings`, from index `i`, for `n` more iterations. -/
def createRingsFrom : ℕ → ℕ → Rand → List RingData × Rand
  | _, 0, rnd => ([], rnd)
  | i, n + 1, rnd =>
    let colorIndex : ℤ := Int.floor (rnd 0 * (ringColors.length : ℚ))
    let ring : Mesh := ⟨⟨0, 0, 0⟩, ⟨0, 0, 0⟩, 4, colorAt colorIndex⟩
    let placed := positionRing ring ((i : ℚ) * -ringSpacing) (rnd.drop 1)
    let rest := createRingsFrom (i + 1) n placed.2
    ({ mesh := placed.1, passed := false } :: rest.1, rest.2)

/-- `createRings()`: `numberOfRings` rings of torus radius 4. -/
def createRings (rnd : Rand) : List RingData × Rand :=
  createRingsFrom 0 numberOfRings rnd

/-- `createAirplane()`: the position and rotation of the new airplane group,
`airplane.position.set(0, 0, 0)` and the default rotation. -/
def createAirplane : Vec3 × Vec3 := (⟨0, 0, 0⟩, ⟨0, 0, 0⟩)

/-- `init()`: camera at `(0, 5, 15)`, the airplane, the ring pool, and the
initial values of the module-level variables. -/
def init (rnd : Rand) : Game :=
  let made := createRings rnd
  { airplanePosition := createAirplane.1
    airplaneRotation := createAirplane.2
    airplaneTargetX := 0
    airplaneTargetY := 0
    scenePositionZ := 0
    cameraPosition := ⟨0, 5, 15⟩
    rings := made.1
    score := 0
    touchStartX := 0
    touchStartY := 0
    isTouching := false
    rng := made.2 }

/-! ## Event handlers -/

/-- `onTouchStart(event)` with `event.touches[0] = (clientX, clientY)`. -/
def onTouchStart (g : Game) (clientX clientY : ℚ) : Game :=
  { g with isTouching := true, touchStartX := clientX, touchStartY := clientY }

/-- `onTouchMove(event)` with `event.touches[0] = (clientX, clientY)`. -/
def onTouchMove (g : Game) (clientX clientY : ℚ) : Game :=
  if g.isTouching = false then g
  else
    let touchX := clientX
    let touchY := clientY
    let deltaX := touchX - g.touchStartX
    let deltaY := touchY - g.touchStartY
    let targetX := g.airplaneTargetX + deltaX * sensitivityX
    let targetY := g.airplaneTargetY + deltaY * sensitivityY
    { g with
      airplaneTargetX := maxMin (-15) 15 targetX
      airplaneTargetY := maxMin (-5) 20 targetY
      touchStartX := touchX
      touchStartY := touchY }

/-- `onTouchEnd()`. -/
def onTouchEnd (g : Game) : Game :=
  { g with isTouching := false }

/-! ## Per-frame update -/

/-- The easing assignment `pos += (target - pos) * airplaneMoveSpeed`. -/
def ease (pos target : ℚ) : ℚ := pos + (target - pos) * airplaneMoveSpeed

/-- The airplane position after the two easing assignments of `update`. -/
def easedPosition (g : Game) : Vec3 :=
  { g.airplanePosition with
    x := ease g.airplanePosition.x g.airplaneTargetX
    y := ease g.airplanePosition.y g.airplaneTargetY }

/-- The collision branch of the `forEach` body: the new score and `passed`. -/
def collisionStep (airplanePos : Vec3) (ringData : RingData) (score : ℤ) : ℤ × Bool :=
  if ringData.passed = false ∧ |airplanePos.z - ringData.mesh.position.z| < 2 then
    if distanceLt airplanePos ringData.mesh.position ringData.mesh.radius then
      (score + 1, true)
    else (score, ringData.passed)
  else (score, ringData.passed)

/-- The body of `rings.forEach(ringData => ...)` for one ring; `len` is
`rings.length`. -/
def ringStep (airplanePos cameraPos : Vec3) (len : ℕ) (ringData : RingData)
    (score : ℤ) (rnd : Rand) : RingData × ℤ × Rand :=
  let ring := ringData.mesh
  let hit := collisionStep airplanePos ringData score
  if ring.position.z > cameraPos.z + 10 then
    let newZ := (len : ℚ) * -ringSpacing + ringSpawnDistance
    let placed := positionRing ring newZ rnd
    ({ mesh := placed.1, passed := false }, hit.1, placed.2)
  else
    ({ mesh := ring, passed := hit.2 }, hit.1, rnd)

/-- The loop `rings.forEach`, threading the score and the random stream. -/
def forEachRing (airplanePos cameraPos : Vec3) (len : ℕ) :
    List RingData → ℤ → Rand → List RingData × ℤ × Rand
  | [], score, rnd => ([], score, rnd)
  | ringData :: rest, score, rnd =>
    let one := ringStep airplanePos cameraPos len ringData score rnd
    let more := forEachRing airplanePos cameraPos len rest one.2.1 one.2.2
    (one.1 :: more.1, more.2.1, more.2.2)

/-- `update()`: one frame of game logic. -/
def update (g : Game) : Game :=
  let pos := easedPosition g
  let rot : Vec3 :=
    { g.airplaneRotation with
      z := (g.airplaneTargetX - pos.x) * -(5 / 100)
      x := (g.airplaneTargetY - pos.y) * (2 / 100) }
  let looped := forEachRing pos g.cameraPosition g.rings.length g.rings g.score g.rng
  { g with
    airplanePosition := pos
    airplaneRotation := rot
    scenePositionZ := g.scenePositionZ + forwardSpeed
    rings := looped.1
    score := looped.2.1
    rng := looped.2.2 }

/-! ## Runs of the game -/

/-- What can happen after start-up: a rendered frame or a pointer event. -/
inductive Event where
  | frame
  | touchStart (clientX clientY : ℚ)
  | touchMove (clientX clientY : ℚ)
  | touchEnd
  deriving DecidableEq

/-- The handler run for an event (`animate` calls `update` once per frame). -/
def step (g : Game) : Event → Game
  | .frame => update g
  | .touchStart x y => onTouchStart g x y
  | .touchMove x y => onTouchMove g x y
  | .touchEnd => onTouchEnd g

/-- The state after a sequence of events. -/
def run (g : Game) (events : List Event) : Game := events.foldl step g

/-- States reachable from start-up, for some random stream and some events. -/
def Reachable (g : Game) : Prop := ∃ rnd events, g = run (init rnd) events

/-! ## Predicates used in the statements -/

/-- The geometric part of the collision test of `update`. -/
def collisionTest (airplanePos : Vec3) (ringData : RingData) : Prop :=
  |airplanePos.z - ringData.mesh.position.z| < 2 ∧
    distanceLt airplanePos ringData.mesh.position ringData.mesh.radius

instance (p : Vec3) (rd : RingData) : Decidable (collisionTest p rd) := by
  unfold collisionTest; infer_instance

/-- The recycle test of `update`: `ring.position.z > camera.position.z + 10`. -/
def recycleTest (cameraPos : Vec3) (ringData : RingData) : Prop :=
  ringData.mesh.position.z > cameraPos.z + 10

instance (c : Vec3) (rd : RingData) : Decidable (recycleTest c rd) := by
  unfold recycleTest; infer_instance

/-- A ring that is Unpassed and whose collision test succeeds. -/
def scores (airplanePos : Vec3) (ringData : RingData) : Prop :=
  ringData.passed = false ∧ collisionTest airplanePos ringData

instance (p : Vec3) (rd : RingData) : Decidable (scores p rd) := by
  unfold scores; infer_instance

/-- Strictly between two bounds, whichever of them is the smaller. -/
def strictlyBetween (v a b : ℚ) : Prop :=
  (a < v ∧ v < b) ∨ (b < v ∧ v < a)

instance (v a b : ℚ) : Decidable (strictlyBetween v a b) := by
  unfold strictlyBetween; infer_instance

/-- Clamping as the specification words it, `clamp(v, lo, hi)`: `lo` below the
interval, `hi` above it, `v` inside. -/
def specClamp (v lo hi : ℚ) : ℚ :=
  if v < lo then lo else if hi < v then hi else v

/-- A random stream that always returns `0`. -/
def zeroRand : Rand := fun _ => 0

/-- A test world: the airplane at rest at the origin (position and target
both 0), the camera at `(0, 5, cameraZ)`, and the given pool of rings. -/
def restGame (rings : List RingData) (cameraZ : ℚ) (score : ℤ) : Game :=
  { airplanePosition := ⟨0, 0, 0⟩
    airplaneRotation := ⟨0, 0, 0⟩
    airplaneTargetX := 0
    airplaneTargetY := 0
    scenePositionZ := 0
    cameraPosition := ⟨0, 5, cameraZ⟩
    rings := rings
    score := score
    touchStartX := 0
    touchStartY := 0
    isTouching := false
    rng := zeroRand }

/-- The indicator of `scores`: what a ring adds to the score in a frame. -/
def gain (airplanePos : Vec3) (ringData : RingData) : ℤ :=
  if scores airplanePos ringData then 1 else 0

/-- What ring `i` of the pool adds to the score in the frame run from `g`:
the score the `forEach` body returns for it, started from 0. -/
def frameGain (g : Game) (i : ℕ) : ℤ :=
  match g.rings[i]? with
  | none => 0
  | some ringData =>
    (ringStep (easedPosition g) g.cameraPosition g.rings.length ringData 0 g.rng).2.1

/-- What ring `i` adds to the score when event `e` is handled in `g`. -/
def eventGain (g : Game) (i : ℕ) : Event → ℤ
  | .frame => frameGain g i
  | _ => 0

/-- What ring `i` adds to the score over a run of events from `g`. -/
def totalGain (g : Game) (i : ℕ) : List Event → ℤ
  | [] => 0
  | e :: es => eventGain g i e + totalGain (step g e) i es

/-- The recycle test of ring `i` fires in no frame of the run from `g`. -/
def neverRecycled (g : Game) (i : ℕ) : List Event → Prop
  | [] => True
  | e :: es =>
    (e = Event.frame → ∀ ringData, g.rings[i]? = some ringData →
        ¬ recycleTest g.cameraPosition ringData) ∧
      neverRecycled (step g e) i es

/-- The Z that `update` passes on to a recycled ring, after `positionRing`
has subtracted its 50. -/
def recycledZ (len : ℕ) : ℚ := (len : ℚ) * -ringSpacing + ringSpawnDistance - 50

/-! ## Binary64 rounding, for the easing step -/

/-- Round to the nearest integer, ties to the even one. -/
def roundHalfEven (x : ℚ) : ℤ :=
  if Int.fract x < 1 / 2 then ⌊x⌋
  else if 1 / 2 < Int.fract x then ⌊x⌋ + 1
  else if ⌊x⌋ % 2 = 0 then ⌊x⌋ else ⌊x⌋ + 1

/-- The binary exponent of the binade of `x` in binary64; subnormal numbers
share the exponent -1022. -/
def binade (x : ℚ) : ℤ := max (Int.log 2 |x|) (-1022)

/-- The spacing of the binary64 numbers in the binade of `x`: 53 significant
bits. -/
def quantum (x : ℚ) : ℚ := (2 : ℚ) ^ (binade x - 52)

/-- The binary64 result of an arithmetic operation whose exact value is `x`:
round to nearest, ties to even. Overflow to infinity is left out (the
coordinates of the game are bounded by the clamps of `onTouchMove`). -/
def roundDouble (x : ℚ) : ℚ := (roundHalfEven (x / quantum x) : ℚ) * quantum x

/-- The finite binary64 numbers: `m * 2 ^ e` with `|m| < 2 ^ 53` and
`e ≥ -1074`. -/
def isDouble (y : ℚ) : Prop :=
  ∃ m e : ℤ, |m| < 2 ^ 53 ∧ -1074 ≤ e ∧ y = (m : ℚ) * (2 : ℚ) ^ e

/-- The binary64 number that the literal `0.05` of `airplaneMoveSpeed` denotes. -/
def airplaneMoveSpeedDouble : ℚ := 3602879701896397 / 72057594037927936

/-- The easing assignment `pos += (target - pos) * k` with each of its three
operations (subtraction, multiplication, addition) rounded by `fl`. -/
def easeRounded (fl : ℚ → ℚ) (k pos target : ℚ) : ℚ :=
  fl (pos + fl (fl (target - pos) * k))

/-- The Z at which `createRings` places the last ring of a pool of `len` rings,
`positionRing(ring, (len - 1) * -ringSpacing)`: the front of the start-up field. -/
def fieldFrontZ (len : ℕ) : ℚ := ((len : ℚ) - 1) * -ringSpacing - 50

/-- A ring in the field: not behind the recycle line of the camera and no
further ahead than the front of the start-up field. -/
def inField (len : ℕ) (cameraPos : Vec3) (ringData : RingData) : Prop :=
  fieldFrontZ len ≤ ringData.mesh.position.z ∧ ¬ recycleTest cameraPos ringData

instance (len : ℕ) (c : Vec3) (rd : RingData) : Decidable (inField len c rd) := by
  unfold inField; infer_instance

/-- What holds of every state reachable from `init rnd`. -/
def StartupInvariant (rnd : Rand) (g : Game) : Prop :=
  g.airplanePosition.z = 0 ∧ g.cameraPosition = ⟨0, 5, 15⟩ ∧ g.score = 0 ∧
    g.rings = (createRings rnd).1 ∧
    (-15 ≤ g.airplaneTargetX ∧ g.airplaneTargetX ≤ 15) ∧
    (-5 ≤ g.airplaneTargetY ∧ g.airplaneTargetY ≤ 20)

/-! ## The embedding of library calls -/

/-- The test `distanceLt` is the comparison of the real square root with `r`. -/
theorem distanceLt_iff_sqrt (a b : Vec3) (r : ℚ) :
    distanceLt a b r ↔ Real.sqrt ((distanceToSquared a b : ℚ) : ℝ) < (r : ℝ) := by
  unfold distanceLt
  by_cases hr : 0 < r
  · have hr' : (0 : ℝ) < (r : ℝ) := by exact_mod_cast hr
    rw [Real.sqrt_lt' hr']
    constructor
    · rintro ⟨_, h⟩
      have : ((distanceToSquared a b : ℚ) : ℝ) < ((r * r : ℚ) : ℝ) := by exact_mod_cast h
      simpa [pow_two] using this
    · intro h
      refine ⟨hr, ?_⟩
      have : ((distanceToSquared a b : ℚ) : ℝ) < ((r * r : ℚ) : ℝ) := by
        simpa [pow_two] using h
      exact_mod_cast this
  · constructor
    · rintro ⟨h, _⟩; exact absurd h hr
    · intro h
      have hr' : (r : ℝ) ≤ 0 := by exact_mod_cast not_lt.mp hr
      have := Real.sqrt_nonneg ((distanceToSquared a b : ℚ) : ℝ)
      linarith

/-- The nested `Math.max`/`Math.min` is clamping, when the interval is not empty. -/
theorem maxMin_eq_specClamp (lo hi v : ℚ) (h : lo ≤ hi) :
    maxMin lo hi v = specClamp v lo hi := by
  unfold maxMin specClamp
  by_cases h1 : v < lo
  · rw [if_pos h1, min_eq_right (by linarith), max_eq_left (le_of_lt h1)]
  · rw [if_neg h1]
    by_cases h2 : hi < v
    · rw [if_pos h2, min_eq_left (le_of_lt h2), max_eq_right h]
    · rw [if_neg h2, min_eq_right (not_lt.mp h2), max_eq_right (not_lt.mp h1)]

/-- The clamping expression lands in the interval. -/
theorem maxMin_mem (lo hi v : ℚ) (h : lo ≤ hi) :
    lo ≤ maxMin lo hi v ∧ maxMin lo hi v ≤ hi := by
  unfold maxMin
  exact ⟨le_max_left _ _, max_le h (min_le_left _ _)⟩

/-! ## The body of the ring loop -/

theorem Rand.drop_drop (r : Rand) (a b : ℕ) : (r.drop a).drop b = r.drop (a + b) := by
  funext n
  simp only [Rand.drop]
  congr 1
  omega

theorem Rand.drop_zero (r : Rand) : r.drop 0 = r := rfl

/-- The score after the collision branch. -/
theorem collisionStep_fst (p : Vec3) (rd : RingData) (s : ℤ) :
    (collisionStep p rd s).1 = s + gain p rd := by
  unfold collisionStep gain scores collisionTest
  by_cases h1 : rd.passed = false ∧ |p.z - rd.mesh.position.z| < 2
  · by_cases h2 : distanceLt p rd.mesh.position rd.mesh.radius
    · rw [if_pos h1, if_pos h2, if_pos ⟨h1.1, h1.2, h2⟩]
    · rw [if_pos h1, if_neg h2, if_neg (fun h => h2 h.2.2)]; simp
  · rw [if_neg h1, if_neg (fun h => h1 ⟨h.1, h.2.1⟩)]; simp

/-- The flag after the collision branch. -/
theorem collisionStep_snd (p : Vec3) (rd : RingData) (s : ℤ) :
    (collisionStep p rd s).2 = true ↔ rd.passed = true ∨ collisionTest p rd := by
  unfold collisionStep collisionTest
  by_cases h1 : rd.passed = false ∧ |p.z - rd.mesh.position.z| < 2
  · by_cases h2 : distanceLt p rd.mesh.position rd.mesh.radius
    · rw [if_pos h1, if_pos h2]
      simp [h1.2, h2]
    · rw [if_pos h1, if_neg h2]
      simp [h1.1, h2]
  · rw [if_neg h1]
    constructor
    · intro h; exact Or.inl h
    · rintro (h | ⟨h, _⟩)
      · exact h
      · cases hp : rd.passed
        · exact absurd ⟨hp, h⟩ h1
        · rfl

theorem gain_nonneg (p : Vec3) (rd : RingData) : 0 ≤ gain p rd := by
  unfold gain; split <;> norm_num

theorem gain_le_one (p : Vec3) (rd : RingData) : gain p rd ≤ 1 := by
  unfold gain; split <;> norm_num

theorem gain_of_passed (p : Vec3) (rd : RingData) (h : rd.passed = true) : gain p rd = 0 := by
  unfold gain scores
  rw [if_neg]
  rintro ⟨h', _⟩
  rw [h] at h'
  exact Bool.noConfusion h'

theorem gain_eq_one_iff (p : Vec3) (rd : RingData) : gain p rd = 1 ↔ scores p rd := by
  unfold gain
  by_cases h : scores p rd
  · simp [h]
  · simp [h]

/-- The score returned by the loop body. -/
theorem ringStep_score (p c : Vec3) (len : ℕ) (rd : RingData) (s : ℤ) (r : Rand) :
    (ringStep p c len rd s r).2.1 = s + gain p rd := by
  unfold ringStep
  by_cases h : rd.mesh.position.z > c.z + 10
  · simp only [if_pos h]; exact collisionStep_fst p rd s
  · simp only [if_neg h]; exact collisionStep_fst p rd s

/-- The ring returned by the loop body when the recycle test fires. -/
theorem ringStep_recycled (p c : Vec3) (len : ℕ) (rd : RingData) (s : ℤ) (r : Rand)
    (h : recycleTest c rd) :
    (ringStep p c len rd s r).1 =
      { mesh := { rd.mesh with
                  position := ⟨r 0 * 20 - 10, r 1 * 15 + 2, recycledZ len⟩
                  rotation := ⟨r 2 * mathPI * (1 / 10), r 3 * mathPI * (1 / 10),
                               r 4 * mathPI * (5 / 10)⟩ }
        passed := false } := by
  unfold recycleTest at h
  unfold ringStep
  simp only [if_pos h, positionRing, recycledZ]

/-- The ring returned by the loop body when the recycle test does not fire. -/
theorem ringStep_kept (p c : Vec3) (len : ℕ) (rd : RingData) (s : ℤ) (r : Rand)
    (h : ¬ recycleTest c rd) :
    (ringStep p c len rd s r).1 = { mesh := rd.mesh, passed := (collisionStep p rd s).2 } := by
  unfold recycleTest at h
  unfold ringStep
  simp only [if_neg h]

/-- The random stream returned by the loop body is a suffix of the one given. -/
theorem ringStep_rng (p c : Vec3) (len : ℕ) (rd : RingData) (s : ℤ) (r : Rand) :
    ∃ k, (ringStep p c len rd s r).2.2 = r.drop k := by
  unfold ringStep
  by_cases h : rd.mesh.position.z > c.z + 10
  · exact ⟨5, by simp only [if_pos h, positionRing]⟩
  · exact ⟨0, by simp only [if_neg h]; rfl⟩

/-! ## The ring loop -/

theorem forEachRing_length (p c : Vec3) (len : ℕ) (rings : List RingData) (s : ℤ) (r : Rand) :
    (forEachRing p c len rings s r).1.length = rings.length := by
  induction rings generalizing s r with
  | nil => rfl
  | cons rd rest ih => simp only [forEachRing, List.length_cons, ih]

/-- The loop adds to the score the gain of every ring of the pool. -/
theorem forEachRing_score (p c : Vec3) (len : ℕ) (rings : List RingData) (s : ℤ) (r : Rand) :
    (forEachRing p c len rings s r).2.1 = s + (rings.map (gain p)).sum := by
  induction rings generalizing s r with
  | nil => simp [forEachRing]
  | cons rd rest ih =>
    simp only [forEachRing, ih, ringStep_score, List.map_cons, List.sum_cons]
    ring

/-- Ring `i` after the loop is what the loop body returns for ring `i`, run with
some score and some suffix of the random stream. -/
theorem forEachRing_getElem? (p c : Vec3) (len : ℕ) (rings : List RingData) (s : ℤ)
    (r : Rand) (i : ℕ) (rd : RingData) (h : rings[i]? = some rd) :
    ∃ s' k, (forEachRing p c len rings s r).1[i]? = some (ringStep p c len rd s' (r.drop k)).1 := by
  induction rings generalizing s r i with
  | nil => simp at h
  | cons rd0 rest ih =>
    cases i with
    | zero =>
      simp only [List.getElem?_cons_zero, Option.some.injEq] at h
      subst h
      exact ⟨s, 0, by simp only [forEachRing, List.getElem?_cons_zero, Rand.drop_zero]⟩
    | succ j =>
      simp only [List.getElem?_cons_succ] at h
      obtain ⟨k0, hk0⟩ := ringStep_rng p c len rd0 s r
      obtain ⟨s', k, hk⟩ := ih (ringStep p c len rd0 s r).2.1 (ringStep p c len rd0 s r).2.2 j h
      refine ⟨s', k0 + k, ?_⟩
      simp only [forEachRing, List.getElem?_cons_succ]
      rw [hk, hk0, Rand.drop_drop]

/-- The sum of the gains counts the rings that score. -/
theorem sum_gain_eq_countP (p : Vec3) (rings : List RingData) :
    (rings.map (gain p)).sum = ((rings.countP (fun rd => decide (scores p rd)) : ℕ) : ℤ) := by
  induction rings with
  | nil => simp
  | cons rd rest ih =>
    rw [List.map_cons, List.sum_cons, ih, List.countP_cons]
    unfold gain
    by_cases h : scores p rd
    · simp [h]; ring
    · simp [h]

/-! ## Input mapping: `onTouchMove` -/

/-- While dragging, `onTouchMove` is the clamped incremental update. -/
theorem onTouchMove_dragging (g : Game) (x y : ℚ) (h : g.isTouching = true) :
    onTouchMove g x y =
      { g with
        airplaneTargetX := maxMin (-15) 15 (g.airplaneTargetX + (x - g.touchStartX) * sensitivityX)
        airplaneTargetY := maxMin (-5) 20 (g.airplaneTargetY + (y - g.touchStartY) * sensitivityY)
        touchStartX := x
        touchStartY := y } := by
  simp [onTouchMove, h]

/-- Without an active drag, `onTouchMove` changes nothing. -/
theorem onTouchMove_idle (g : Game) (x y : ℚ) (h : g.isTouching = false) :
    onTouchMove g x y = g := by
  simp [onTouchMove, h]

/-- C8. For a pointer-move at `(x, y)` handled while dragging, `onTouchMove`
sets `targetX` to `clamp(targetX + 0.03 * (x - prevX), -15, 15)` and `targetY`
to `clamp(targetY - 0.04 * (y - prevY), -5, 20)`, then records `(x, y)` as the
previous coordinate; a drag of 100 px to the right raises `targetX` by 3 when
that stays within the limits and leaves it at 15 when it would exceed 15. -/
theorem onTouchMove_clamped_increment (g : Game) (x y : ℚ) (h : g.isTouching = true) :
    (onTouchMove g x y).airplaneTargetX
        = specClamp (g.airplaneTargetX + 3 / 100 * (x - g.touchStartX)) (-15) 15 ∧
    (onTouchMove g x y).airplaneTargetY
        = specClamp (g.airplaneTargetY - 4 / 100 * (y - g.touchStartY)) (-5) 20 ∧
    (onTouchMove g x y).touchStartX = x ∧
    (onTouchMove g x y).touchStartY = y ∧
    (x - g.touchStartX = 100 → -15 ≤ g.airplaneTargetX + 3 → g.airplaneTargetX + 3 ≤ 15 →
      (onTouchMove g x y).airplaneTargetX = g.airplaneTargetX + 3) ∧
    (x - g.touchStartX = 100 → 15 < g.airplaneTargetX + 3 →
      (onTouchMove g x y).airplaneTargetX = 15) := by
  have hx : (onTouchMove g x y).airplaneTargetX
      = specClamp (g.airplaneTargetX + 3 / 100 * (x - g.touchStartX)) (-15) 15 := by
    rw [onTouchMove_dragging g x y h, ← maxMin_eq_specClamp _ _ _ (by norm_num)]
    simp only [sensitivityX]
    congr 1; ring
  have hy : (onTouchMove g x y).airplaneTargetY
      = specClamp (g.airplaneTargetY - 4 / 100 * (y - g.touchStartY)) (-5) 20 := by
    rw [onTouchMove_dragging g x y h, ← maxMin_eq_specClamp _ _ _ (by norm_num)]
    simp only [sensitivityY]
    congr 1; ring
  refine ⟨hx, hy, ?_, ?_, ?_, ?_⟩
  · rw [onTouchMove_dragging g x y h]
  · rw [onTouchMove_dragging g x y h]
  · intro hd hlo hhi
    rw [hx, hd]
    have e : g.airplaneTargetX + 3 / 100 * 100 = g.airplaneTargetX + 3 := by ring
    rw [e]
    unfold specClamp
    rw [if_neg (not_lt.mpr hlo), if_neg (not_lt.mpr hhi)]
  · intro hd hhi
    rw [hx, hd]
    have e : g.airplaneTargetX + 3 / 100 * 100 = g.airplaneTargetX + 3 := by ring
    rw [e]
    unfold specClamp
    rw [if_neg (by linarith), if_pos hhi]

/-- C8, at a concrete drag: pressed at `(0, 0)` right after start-up and moved
to `(100, 0)`. -/
theorem onTouchMove_clamped_increment_witness :
    (onTouchStart (init zeroRand) 0 0).isTouching = true ∧
    (onTouchMove (onTouchStart (init zeroRand) 0 0) 100 0).airplaneTargetX = 3 ∧
    (onTouchMove (onTouchStart (init zeroRand) 0 0) 100 0).touchStartX = 100 := by
  have h := onTouchMove_clamped_increment (onTouchStart (init zeroRand) 0 0) 100 0 rfl
  refine ⟨rfl, ?_, h.2.2.1⟩
  have h5 := h.2.2.2.2.1
  simp only [onTouchStart, init] at h5
  have := h5 (by norm_num) (by norm_num) (by norm_num)
  simpa [onTouchStart, init] using this

/-- C9. The code does the opposite of "dragging down raises the target": after
start-up, a press at `(0, 0)` followed by a move down to `(0, 50)` takes
`targetY` from 0 to -2; and in general a downward drag handled while dragging
never raises `targetY`, and strictly lowers it when it was above the lower
limit -5. -/
theorem onTouchMove_drag_down_lowers_target :
    (onTouchStart (init zeroRand) 0 0).airplaneTargetY = 0 ∧
    (onTouchMove (onTouchStart (init zeroRand) 0 0) 0 50).airplaneTargetY = -2 ∧
    ∀ (g : Game) (x y : ℚ), g.isTouching = true → g.touchStartY < y →
      ((-5 ≤ g.airplaneTargetY → (onTouchMove g x y).airplaneTargetY ≤ g.airplaneTargetY) ∧
       (-5 < g.airplaneTargetY → (onTouchMove g x y).airplaneTargetY < g.airplaneTargetY)) := by
  refine ⟨rfl, ?_, ?_⟩
  · rw [onTouchMove_dragging _ 0 50 rfl]
    simp only [onTouchStart, init, maxMin, sensitivityY]
    norm_num
  · intro g x y h hy
    rw [onTouchMove_dragging g x y h]
    simp only [maxMin, sensitivityY]
    constructor
    · intro hlo
      apply max_le hlo
      apply le_trans (min_le_right _ _)
      nlinarith
    · intro hlo
      apply max_lt hlo
      apply lt_of_le_of_lt (min_le_right _ _)
      nlinarith

/-! ## One frame: `update` -/

theorem update_rings (g : Game) :
    (update g).rings =
      (forEachRing (easedPosition g) g.cameraPosition g.rings.length g.rings g.score g.rng).1 :=
  rfl

theorem update_score (g : Game) :
    (update g).score = g.score + (g.rings.map (gain (easedPosition g))).sum := by
  show (forEachRing (easedPosition g) g.cameraPosition g.rings.length g.rings g.score g.rng).2.1 = _
  exact forEachRing_score _ _ _ _ _ _

theorem update_rings_length (g : Game) : (update g).rings.length = g.rings.length := by
  rw [update_rings, forEachRing_length]

theorem update_airplanePosition (g : Game) : (update g).airplanePosition = easedPosition g := rfl

theorem update_cameraPosition (g : Game) : (update g).cameraPosition = g.cameraPosition := rfl

/-- Ring `i` after a frame, when its recycle test does not fire: the same
mesh, and Passed exactly when it was Passed or its collision test succeeds. -/
theorem update_ring_kept (g : Game) (i : ℕ) (rd rd' : RingData)
    (h : g.rings[i]? = some rd) (h' : (update g).rings[i]? = some rd')
    (hk : ¬ recycleTest g.cameraPosition rd) :
    rd'.mesh = rd.mesh ∧
      (rd'.passed = true ↔ rd.passed = true ∨ collisionTest (easedPosition g) rd) := by
  obtain ⟨s', k, hs⟩ := forEachRing_getElem? (easedPosition g) g.cameraPosition g.rings.length
    g.rings g.score g.rng i rd h
  rw [update_rings, hs, ringStep_kept _ _ _ _ _ _ hk] at h'
  simp only [Option.some.injEq] at h'
  subst h'
  exact ⟨rfl, collisionStep_snd _ _ _⟩

/-- Ring `i` after a frame, when its recycle test fires: repositioned from five
draws of a suffix of the random stream, and Unpassed. -/
theorem update_ring_recycled (g : Game) (i : ℕ) (rd rd' : RingData)
    (h : g.rings[i]? = some rd) (h' : (update g).rings[i]? = some rd')
    (hr : recycleTest g.cameraPosition rd) :
    ∃ k, rd' =
      { mesh := { rd.mesh with
                  position := ⟨g.rng (0 + k) * 20 - 10, g.rng (1 + k) * 15 + 2,
                               recycledZ g.rings.length⟩
                  rotation := ⟨g.rng (2 + k) * mathPI * (1 / 10),
                               g.rng (3 + k) * mathPI * (1 / 10),
                               g.rng (4 + k) * mathPI * (5 / 10)⟩ }
        passed := false } := by
  obtain ⟨s', k, hs⟩ := forEachRing_getElem? (easedPosition g) g.cameraPosition g.rings.length
    g.rings g.score g.rng i rd h
  rw [update_rings, hs, ringStep_recycled _ _ _ _ _ _ hr] at h'
  simp only [Option.some.injEq] at h'
  exact ⟨k, h'.symm⟩

/-- C1. A frame never decreases the score; it adds exactly the number of rings
of the pool that were Unpassed at the start of the frame and whose collision
test succeeds against the eased airplane position; each such ring that is not
recycled in the frame ends it Passed. With the airplane at rest at the origin,
one Unpassed ring of radius 4 at the origin and the camera at z = 15, a frame
adds 1 to the score and leaves the ring Passed. -/
theorem update_score_counts_passes (g : Game) :
    g.score ≤ (update g).score ∧
    (update g).score
      = g.score + ((g.rings.countP (fun rd => decide (scores (easedPosition g) rd)) : ℕ) : ℤ) ∧
    (∀ (i : ℕ) (rd rd' : RingData), g.rings[i]? = some rd → (update g).rings[i]? = some rd' →
      scores (easedPosition g) rd → ¬ recycleTest g.cameraPosition rd → rd'.passed = true) ∧
    (∀ (cx cy : ℚ) (rot : Vec3) (col : Option ℕ),
      (update { g with
          airplanePosition := ⟨0, 0, 0⟩, airplaneTargetX := 0, airplaneTargetY := 0,
          cameraPosition := ⟨cx, cy, 15⟩,
          rings := [⟨⟨⟨0, 0, 0⟩, rot, 4, col⟩, false⟩] }).score = g.score + 1 ∧
      (update { g with
          airplanePosition := ⟨0, 0, 0⟩, airplaneTargetX := 0, airplaneTargetY := 0,
          cameraPosition := ⟨cx, cy, 15⟩,
          rings := [⟨⟨⟨0, 0, 0⟩, rot, 4, col⟩, false⟩] }).rings
        = [⟨⟨⟨0, 0, 0⟩, rot, 4, col⟩, true⟩]) := by
  have hs : (update g).score
      = g.score + ((g.rings.countP (fun rd => decide (scores (easedPosition g) rd)) : ℕ) : ℤ) := by
    rw [update_score, sum_gain_eq_countP]
  refine ⟨?_, hs, ?_, ?_⟩
  · rw [hs]
    have : (0 : ℤ) ≤ ((g.rings.countP (fun rd => decide (scores (easedPosition g) rd)) : ℕ) : ℤ) :=
      Int.natCast_nonneg _
    linarith
  · intro i rd rd' h h' hsc hk
    exact (update_ring_kept g i rd rd' h h' hk).2.mpr (Or.inr hsc.2)
  · intro cx cy rot col
    constructor
    · rw [update_score]
      simp [gain, scores, collisionTest, distanceLt, distanceToSquared, easedPosition, ease]
    · simp [update, forEachRing, ringStep, collisionStep, distanceLt, distanceToSquared,
        easedPosition, ease]
      norm_num

/-- The flag of a ring after a frame, from any state: Passed exactly when the
recycle test did not fire in the frame and either the ring was already Passed
or its collision test succeeded in the frame; Unpassed when recycled. -/
theorem update_passed_iff (g : Game) (i : ℕ) (rd rd' : RingData)
    (h : g.rings[i]? = some rd) (h' : (update g).rings[i]? = some rd') :
    (rd'.passed = true ↔
      ¬ recycleTest g.cameraPosition rd ∧
        (rd.passed = true ∨ collisionTest (easedPosition g) rd)) ∧
    (recycleTest g.cameraPosition rd → rd'.passed = false) := by
  by_cases hr : recycleTest g.cameraPosition rd
  · obtain ⟨k, hk⟩ := update_ring_recycled g i rd rd' h h' hr
    have hp : rd'.passed = false := by rw [hk]
    refine ⟨?_, fun _ => hp⟩
    constructor
    · intro ht; rw [hp] at ht; exact Bool.noConfusion ht
    · rintro ⟨hn, _⟩; exact absurd hr hn
  · have hk := (update_ring_kept g i rd rd' h h' hr).2
    refine ⟨?_, fun hr' => absurd hr' hr⟩
    constructor
    · intro ht; exact ⟨hr, hk.mp ht⟩
    · rintro ⟨_, hc⟩; exact hk.mpr hc

/-- C5. Recycle step of a frame: a ring whose Z is greater than camera Z + 10,
whatever its pass state, ends the frame Unpassed and, when every random draw is
in `[0, 1)`, with X in `[-10, 10]` and Y in `[2, 17]`; a ring whose Z is not
greater than camera Z + 10 keeps its position and orientation. The pool has
the same number of rings after the frame. -/
theorem update_recycle_step (g : Game) (i : ℕ) (rd rd' : RingData)
    (h : g.rings[i]? = some rd) (h' : (update g).rings[i]? = some rd') :
    (recycleTest g.cameraPosition rd →
      rd'.passed = false ∧
      ((∀ n, 0 ≤ g.rng n ∧ g.rng n < 1) →
        -10 ≤ rd'.mesh.position.x ∧ rd'.mesh.position.x ≤ 10 ∧
        2 ≤ rd'.mesh.position.y ∧ rd'.mesh.position.y ≤ 17)) ∧
    (¬ recycleTest g.cameraPosition rd →
      rd'.mesh.position = rd.mesh.position ∧ rd'.mesh.rotation = rd.mesh.rotation) ∧
    (update g).rings.length = g.rings.length := by
  refine ⟨?_, ?_, update_rings_length g⟩
  · intro hr
    obtain ⟨k, hk⟩ := update_ring_recycled g i rd rd' h h' hr
    subst hk
    refine ⟨rfl, fun hrng => ?_⟩
    have h0 := hrng (0 + k)
    have h1 := hrng (1 + k)
    refine ⟨?_, ?_, ?_, ?_⟩ <;> simp only <;> linarith [h0.1, h0.2, h1.1, h1.2]
  · intro hk
    have := (update_ring_kept g i rd rd' h h' hk).1
    rw [this]
    exact ⟨rfl, rfl⟩

/-- C5, at a concrete frame: one Passed ring 11 units behind the camera is
repositioned and Unpassed. -/
theorem update_recycle_step_witness :
    (restGame [⟨⟨⟨0, 5, 26⟩, ⟨0, 0, 0⟩, 4, none⟩, true⟩] 15 0).rings[0]?
        = some ⟨⟨⟨0, 5, 26⟩, ⟨0, 0, 0⟩, 4, none⟩, true⟩ ∧
    (update (restGame [⟨⟨⟨0, 5, 26⟩, ⟨0, 0, 0⟩, 4, none⟩, true⟩] 15 0)).rings[0]?
        = some ⟨⟨⟨-10, 2, -240⟩, ⟨0, 0, 0⟩, 4, none⟩, false⟩ ∧
    recycleTest (restGame [⟨⟨⟨0, 5, 26⟩, ⟨0, 0, 0⟩, 4, none⟩, true⟩] 15 0).cameraPosition
        ⟨⟨⟨0, 5, 26⟩, ⟨0, 0, 0⟩, 4, none⟩, true⟩ ∧
    (∀ n, 0 ≤ (restGame [⟨⟨⟨0, 5, 26⟩, ⟨0, 0, 0⟩, 4, none⟩, true⟩] 15 0).rng n ∧
      (restGame [⟨⟨⟨0, 5, 26⟩, ⟨0, 0, 0⟩, 4, none⟩, true⟩] 15 0).rng n < 1) ∧
    (update (restGame [⟨⟨⟨0, 5, 26⟩, ⟨0, 0, 0⟩, 4, none⟩, true⟩] 15 0)).rings.length
        = (restGame [⟨⟨⟨0, 5, 26⟩, ⟨0, 0, 0⟩, 4, none⟩, true⟩] 15 0).rings.length := by
  have h0 : (restGame [⟨⟨⟨0, 5, 26⟩, ⟨0, 0, 0⟩, 4, none⟩, true⟩] 15 0).rings[0]?
      = some ⟨⟨⟨0, 5, 26⟩, ⟨0, 0, 0⟩, 4, none⟩, true⟩ := rfl
  have h1 : (update (restGame [⟨⟨⟨0, 5, 26⟩, ⟨0, 0, 0⟩, 4, none⟩, true⟩] 15 0)).rings[0]?
      = some ⟨⟨⟨-10, 2, -240⟩, ⟨0, 0, 0⟩, 4, none⟩, false⟩ := by
    simp [update, forEachRing, ringStep, collisionStep, restGame, positionRing, zeroRand,
      ringSpacing, ringSpawnDistance]
    norm_num
  have hr : recycleTest (restGame [⟨⟨⟨0, 5, 26⟩, ⟨0, 0, 0⟩, 4, none⟩, true⟩] 15 0).cameraPosition
      ⟨⟨⟨0, 5, 26⟩, ⟨0, 0, 0⟩, 4, none⟩, true⟩ := by
    simp only [recycleTest, restGame]; norm_num
  have hz : ∀ n, 0 ≤ (restGame [⟨⟨⟨0, 5, 26⟩, ⟨0, 0, 0⟩, 4, none⟩, true⟩] 15 0).rng n ∧
      (restGame [⟨⟨⟨0, 5, 26⟩, ⟨0, 0, 0⟩, 4, none⟩, true⟩] 15 0).rng n < 1 := by
    intro n; simp [restGame, zeroRand]
  exact ⟨h0, h1, hr, hz, (update_recycle_step _ 0 _ _ h0 h1).2.2⟩

/-! ## Easing -/

/-- Easing moves a coordinate strictly toward a target it has not reached. -/
theorem ease_strictlyBetween (pos target : ℚ) (h : pos ≠ target) :
    strictlyBetween (ease pos target) pos target := by
  unfold strictlyBetween ease airplaneMoveSpeed
  rcases lt_or_gt_of_ne h with hlt | hgt
  · left; constructor <;> linarith
  · right; constructor <;> linarith

/-- Easing leaves a coordinate that is at its target where it is. -/
theorem ease_self (pos : ℚ) : ease pos pos = pos := by
  unfold ease; ring

/-! ## Binary64 rounding of the easing step -/

theorem int_dist_of_le_floor (x : ℚ) (z : ℤ) (h : z ≤ ⌊x⌋) :
    |(z : ℚ) - x| = x - z ∧ Int.fract x ≤ x - z := by
  have hx : x = (⌊x⌋ : ℚ) + Int.fract x := (Int.floor_add_fract x).symm
  have hf0 : 0 ≤ Int.fract x := Int.fract_nonneg x
  have hz : (z : ℚ) ≤ (⌊x⌋ : ℚ) := by exact_mod_cast h
  constructor
  · rw [abs_sub_comm]; exact abs_of_nonneg (by linarith)
  · linarith

theorem int_dist_of_floor_lt (x : ℚ) (z : ℤ) (h : ⌊x⌋ + 1 ≤ z) :
    |(z : ℚ) - x| = z - x ∧ 1 - Int.fract x ≤ z - x := by
  have hx : x = (⌊x⌋ : ℚ) + Int.fract x := (Int.floor_add_fract x).symm
  have hf1 : Int.fract x < 1 := Int.fract_lt_one x
  have hz : (⌊x⌋ : ℚ) + 1 ≤ (z : ℚ) := by exact_mod_cast h
  constructor
  · exact abs_of_nonneg (by linarith)
  · linarith

theorem roundHalfEven_nearest (x : ℚ) (z : ℤ) :
    |((roundHalfEven x : ℤ) : ℚ) - x| ≤ |(z : ℚ) - x| := by
  have hf0 : 0 ≤ Int.fract x := Int.fract_nonneg x
  have hf1 : Int.fract x < 1 := Int.fract_lt_one x
  have hlo := int_dist_of_le_floor x ⌊x⌋ (le_refl _)
  have hhi := int_dist_of_floor_lt x (⌊x⌋ + 1) (le_refl _)
  have hz : (z ≤ ⌊x⌋ ∧ |(z : ℚ) - x| = x - z ∧ Int.fract x ≤ x - z) ∨
      (⌊x⌋ + 1 ≤ z ∧ |(z : ℚ) - x| = z - x ∧ 1 - Int.fract x ≤ z - x) := by
    rcases le_or_lt z ⌊x⌋ with h | h
    · exact Or.inl ⟨h, int_dist_of_le_floor x z h⟩
    · exact Or.inr ⟨h, int_dist_of_floor_lt x z h⟩
  have hdown : Int.fract x ≤ 1 / 2 → |((⌊x⌋ : ℤ) : ℚ) - x| ≤ |(z : ℚ) - x| := by
    intro hh
    rw [hlo.1]
    have : x - (⌊x⌋ : ℚ) = Int.fract x := by rw [Int.fract]
    rcases hz with ⟨_, e, b⟩ | ⟨_, e, b⟩ <;> rw [e] <;> linarith
  have hup : 1 / 2 ≤ Int.fract x → |((⌊x⌋ + 1 : ℤ) : ℚ) - x| ≤ |(z : ℚ) - x| := by
    intro hh
    rw [hhi.1]
    have : x - (⌊x⌋ : ℚ) = Int.fract x := by rw [Int.fract]
    push_cast
    rcases hz with ⟨_, e, b⟩ | ⟨_, e, b⟩ <;> rw [e] <;> linarith
  unfold roundHalfEven
  split
  · exact hdown (by linarith)
  · split
    · exact hup (by linarith)
    · split
      · exact hdown (by linarith)
      · exact hup (by linarith)

/-- Rounding to a multiple of a positive quantum is nearest among the multiples. -/
theorem roundHalfEven_mul_nearest (x q : ℚ) (hq : 0 < q) (z : ℤ) :
    |((roundHalfEven (x / q) : ℤ) : ℚ) * q - x| ≤ |(z : ℚ) * q - x| := by
  have h := roundHalfEven_nearest (x / q) z
  have e1 : ((roundHalfEven (x / q) : ℤ) : ℚ) * q - x
      = (((roundHalfEven (x / q) : ℤ) : ℚ) - x / q) * q := by field_simp
  have e2 : (z : ℚ) * q - x = ((z : ℚ) - x / q) * q := by field_simp
  rw [e1, e2, abs_mul, abs_mul, abs_of_pos hq]
  exact mul_le_mul_of_nonneg_right h (le_of_lt hq)

theorem quantum_pos (x : ℚ) : 0 < quantum x := by
  unfold quantum; positivity

theorem binade_ge (x : ℚ) : -1022 ≤ binade x := le_max_right _ _

/-- Binary64 rounding returns a double nearest to its argument. -/
theorem roundDouble_nearest (x y : ℚ) (hy : isDouble y) :
    |roundDouble x - x| ≤ |y - x| := by
  obtain ⟨m, e, hm, he, rfl⟩ := hy
  unfold roundDouble
  by_cases hx : x = 0
  · subst hx
    have : roundHalfEven (0 / quantum 0) = 0 := by
      rw [zero_div]
      unfold roundHalfEven
      simp
    rw [this]
    simp
  by_cases hgrid : binade x - 52 ≤ e
  · obtain ⟨d, hd⟩ : ∃ d : ℕ, e = binade x - 52 + d := ⟨(e - (binade x - 52)).toNat, by omega⟩
    have hy : (m : ℚ) * (2 : ℚ) ^ e = ((m * 2 ^ d : ℤ) : ℚ) * quantum x := by
      unfold quantum
      rw [hd, zpow_add₀ (by norm_num : (2 : ℚ) ≠ 0)]
      push_cast
      rw [zpow_natCast]
      ring
    rw [hy]
    exact roundHalfEven_mul_nearest x (quantum x) (quantum_pos x) _
  · have hlt : e < binade x - 52 := lt_of_not_le hgrid
    have hbig : -1022 < binade x := by omega
    have hlog : binade x = Int.log 2 |x| := by
      unfold binade at hbig ⊢
      rcases le_total (Int.log 2 |x|) (-1022) with h | h
      · rw [max_eq_right h] at hbig; omega
      · exact max_eq_left h
    have hx0 : 0 < |x| := abs_pos.mpr hx
    have hpow : (2 : ℚ) ^ binade x ≤ |x| := by
      rw [hlog]
      exact_mod_cast Int.zpow_log_le_self (by norm_num : 1 < 2) hx0
    have hysmall : |(m : ℚ) * (2 : ℚ) ^ e| < (2 : ℚ) ^ binade x := by
      have hm' : |(m : ℚ)| < 2 ^ 53 := by exact_mod_cast hm
      have he' : (2 : ℚ) ^ e ≤ (2 : ℚ) ^ (binade x - 53) :=
        zpow_le_zpow_right₀ (by norm_num) (by omega)
      have hpos : (0 : ℚ) < (2 : ℚ) ^ e := by positivity
      rw [abs_mul, abs_of_pos hpos]
      calc |(m : ℚ)| * (2 : ℚ) ^ e < 2 ^ 53 * (2 : ℚ) ^ e := by
            exact mul_lt_mul_of_pos_right hm' hpos
        _ ≤ 2 ^ 53 * (2 : ℚ) ^ (binade x - 53) := by
            exact mul_le_mul_of_nonneg_left he' (by positivity)
        _ = (2 : ℚ) ^ binade x := by
            rw [zpow_sub₀ (by norm_num : (2 : ℚ) ≠ 0)]
            field_simp
            ring
    have hq : (2 : ℚ) ^ binade x = ((2 ^ 52 : ℤ) : ℚ) * quantum x := by
      unfold quantum
      rw [zpow_sub₀ (by norm_num : (2 : ℚ) ≠ 0)]
      push_cast
      field_simp
      ring
    have hnq : -(2 : ℚ) ^ binade x = ((-(2 ^ 52) : ℤ) : ℚ) * quantum x := by
      rw [hq]; push_cast; ring
    rcases abs_lt.mp hysmall with ⟨hy1, hy2⟩
    rcases le_or_lt 0 x with hxs | hxs
    · rw [abs_of_nonneg hxs] at hpow
      have h1 := roundHalfEven_mul_nearest x (quantum x) (quantum_pos x) (2 ^ 52)
      rw [← hq] at h1
      refine le_trans h1 ?_
      rw [abs_sub_comm, abs_of_nonneg (by linarith), abs_sub_comm, abs_of_nonneg (by linarith)]
      linarith
    · rw [abs_of_neg hxs] at hpow
      have h1 := roundHalfEven_mul_nearest x (quantum x) (quantum_pos x) (-(2 ^ 52))
      rw [← hnq] at h1
      refine le_trans h1 ?_
      rw [abs_of_nonneg (by linarith), abs_of_nonneg (by linarith)]
      linarith

theorem isDouble_zero : isDouble 0 := ⟨0, 0, by norm_num, by norm_num, by norm_num⟩

/-- Easing with every operation rounded to a nearest representable number: the
result is on the segment from the old coordinate to the target, never at or
beyond a target not yet reached. -/
theorem easeRounded_between (fl : ℚ → ℚ) (rep : ℚ → Prop)
    (hfl : ∀ x y, rep y → |fl x - x| ≤ |y - x|) (h0 : rep 0)
    (k : ℚ) (hk0 : 0 ≤ k) (hk : k < 1 / 8) (pos target : ℚ) (hp : rep pos) :
    (pos < target → pos ≤ easeRounded fl k pos target ∧ easeRounded fl k pos target < target) ∧
    (target < pos → target < easeRounded fl k pos target ∧ easeRounded fl k pos target ≤ pos) ∧
    (pos = target → easeRounded fl k pos target = target) := by
  unfold easeRounded
  have ha := abs_le.mp (hfl (target - pos) 0 h0)
  have hd := abs_le.mp (hfl (fl (target - pos) * k) 0 h0)
  have hE := abs_le.mp (hfl (pos + fl (fl (target - pos) * k)) pos hp)
  generalize fl (pos + fl (fl (target - pos) * k)) = E at hE ⊢
  generalize fl (fl (target - pos) * k) = d at hd hE ⊢
  generalize fl (target - pos) = a at ha hd ⊢
  refine ⟨?_, ?_, ?_⟩
  · intro hlt
    have hu : |0 - (target - pos)| = target - pos := by
      rw [zero_sub, abs_neg]; exact abs_of_pos (by linarith)
    rw [hu] at ha
    have ha0 : 0 ≤ a := by linarith [ha.1]
    have hak : |0 - a * k| = a * k := by
      rw [zero_sub, abs_neg]; exact abs_of_nonneg (mul_nonneg ha0 hk0)
    rw [hak] at hd
    have hd0 : 0 ≤ d := by linarith [hd.1]
    have hpd : |pos - (pos + d)| = d := by
      rw [sub_add_cancel_left, abs_neg]; exact abs_of_nonneg hd0
    rw [hpd] at hE
    have h1 : a * k ≤ 2 * (target - pos) * k :=
      mul_le_mul_of_nonneg_right (by linarith [ha.2]) hk0
    have h2 : (target - pos) * k < (target - pos) * (1 / 8) :=
      mul_lt_mul_of_pos_left hk (by linarith)
    constructor <;> linarith [hE.1, hE.2, hd.2]
  · intro hlt
    have hu : |0 - (target - pos)| = pos - target := by
      rw [zero_sub, abs_neg]; rw [abs_of_neg (by linarith)]; ring
    rw [hu] at ha
    have ha0 : a ≤ 0 := by linarith [ha.2]
    have hak : |0 - a * k| = -(a * k) := by
      rw [zero_sub, abs_neg]; exact abs_of_nonpos (mul_nonpos_of_nonpos_of_nonneg ha0 hk0)
    rw [hak] at hd
    have hd0 : d ≤ 0 := by linarith [hd.2]
    have hpd : |pos - (pos + d)| = -d := by
      rw [sub_add_cancel_left]; exact abs_of_nonneg (by linarith)
    rw [hpd] at hE
    have h1 : 2 * (target - pos) * k ≤ a * k :=
      mul_le_mul_of_nonneg_right (by linarith [ha.1]) hk0
    have h2 : (pos - target) * k < (pos - target) * (1 / 8) :=
      mul_lt_mul_of_pos_left hk (by linarith)
    constructor <;> linarith [hE.1, hE.2, hd.1]
  · intro he
    subst he
    have ha0 : a = 0 := by
      have : |0 - (pos - pos)| = 0 := by simp
      rw [this] at ha; linarith [ha.1, ha.2]
    subst ha0
    have hd0 : d = 0 := by
      have : |0 - (0 : ℚ) * k| = 0 := by simp
      rw [this] at hd; linarith [hd.1, hd.2]
    subst hd0
    have : |pos - (pos + 0)| = 0 := by simp
    rw [this] at hE
    linarith [hE.1, hE.2]

theorem binade_eq (x : ℚ) (e : ℤ) (he : -1022 ≤ e) (h1 : (2 : ℚ) ^ e ≤ |x|)
    (h2 : |x| < (2 : ℚ) ^ (e + 1)) : binade x = e := by
  have hpos : 0 < |x| := lt_of_lt_of_le (by positivity) h1
  have hlog : Int.log 2 |x| = e := by
    apply le_antisymm
    · have := (Int.lt_zpow_iff_log_lt (by norm_num : 1 < 2) hpos).mp (by exact_mod_cast h2)
      omega
    · exact (Int.zpow_le_iff_le_log (by norm_num : 1 < 2) hpos).mp (by exact_mod_cast h1)
  unfold binade
  rw [hlog]
  exact max_eq_left he

theorem roundHalfEven_of_lt_half (x : ℚ) (f : ℤ) (h1 : (f : ℚ) ≤ x) (h2 : x - f < 1 / 2) :
    roundHalfEven x = f := by
  have hfl : ⌊x⌋ = f := Int.floor_eq_iff.mpr ⟨h1, by linarith⟩
  have hfr : Int.fract x < 1 / 2 := by rw [Int.fract, hfl]; exact h2
  unfold roundHalfEven
  rw [if_pos hfr, hfl]

theorem roundHalfEven_of_gt_half (x : ℚ) (f : ℤ) (h1 : 1 / 2 < x - f) (h2 : x < (f : ℚ) + 1) :
    roundHalfEven x = f + 1 := by
  have hfl : ⌊x⌋ = f := Int.floor_eq_iff.mpr ⟨by linarith, h2⟩
  have hfr : 1 / 2 < Int.fract x := by rw [Int.fract, hfl]; exact h1
  unfold roundHalfEven
  rw [if_neg (not_lt.mpr (le_of_lt hfr)), if_pos hfr, hfl]

theorem roundHalfEven_of_tie_even (x : ℚ) (f : ℤ) (h1 : x = (f : ℚ) + 1 / 2) (h2 : f % 2 = 0) :
    roundHalfEven x = f := by
  have hfl : ⌊x⌋ = f := Int.floor_eq_iff.mpr ⟨by linarith, by linarith⟩
  have hfr : Int.fract x = 1 / 2 := by rw [Int.fract, hfl]; linarith
  unfold roundHalfEven
  rw [hfr, if_neg (lt_irrefl _), if_neg (lt_irrefl _), hfl, if_pos h2]

theorem roundDouble_eq (x : ℚ) (e n : ℤ) (hb : binade x = e)
    (hr : roundHalfEven (x / (2 : ℚ) ^ (e - 52)) = n) :
    roundDouble x = (n : ℚ) * (2 : ℚ) ^ (e - 52) := by
  unfold roundDouble quantum
  rw [hb, hr]

/-- The binary64 easing step can leave a coordinate where it is, short of the
target: at 2.9999999999999956 (ten quanta below 3) with target 3 the increment
rounds to half a quantum and the sum rounds back, ties to even. -/
theorem easeRounded_stalls :
    isDouble (3377699720527867 / 1125899906842624) ∧
    (3377699720527867 / 1125899906842624 : ℚ) < 3 ∧
    easeRounded roundDouble airplaneMoveSpeedDouble
      (3377699720527867 / 1125899906842624) 3 = 3377699720527867 / 1125899906842624 := by
  refine ⟨⟨3377699720527867, -50, by norm_num, by norm_num, by norm_num⟩, by norm_num, ?_⟩
  have s1 : roundDouble (3 - 3377699720527867 / 1125899906842624) = 5 / 1125899906842624 := by
    rw [roundDouble_eq _ (-48) 5629499534213120]
    · norm_num
    · apply binade_eq <;> norm_num [abs_of_pos]
    · apply roundHalfEven_of_lt_half <;> norm_num
  have s2 : roundDouble (5 / 1125899906842624 * airplaneMoveSpeedDouble)
      = 1 / 4503599627370496 := by
    rw [roundDouble_eq _ (-52) 4503599627370496]
    · norm_num
    · apply binade_eq <;> norm_num [abs_of_pos, airplaneMoveSpeedDouble]
    · apply roundHalfEven_of_lt_half <;> norm_num [airplaneMoveSpeedDouble]
  have s3 : roundDouble (3377699720527867 / 1125899906842624 + 1 / 4503599627370496)
      = 3377699720527867 / 1125899906842624 := by
    rw [roundDouble_eq _ 1 6755399441055734]
    · norm_num
    · apply binade_eq <;> norm_num [abs_of_pos]
    · apply roundHalfEven_of_tie_even <;> norm_num
  unfold easeRounded
  rw [s1, s2, s3]

/-- The literal `0.05` rounds to `airplaneMoveSpeedDouble`. -/
theorem roundDouble_airplaneMoveSpeed : roundDouble airplaneMoveSpeed = airplaneMoveSpeedDouble := by
  rw [roundDouble_eq _ (-5) 7205759403792794]
  · norm_num [airplaneMoveSpeedDouble]
  · apply binade_eq <;> norm_num [abs_of_pos, airplaneMoveSpeed]
  · have h := roundHalfEven_of_gt_half (airplaneMoveSpeed / (2 : ℚ) ^ ((-5 : ℤ) - 52))
      7205759403792793 (by norm_num [airplaneMoveSpeed]) (by norm_num [airplaneMoveSpeed])
    rw [h]; norm_num

/-- Without rounding, the rounded easing step is `ease`. -/
theorem easeRounded_id (pos target : ℚ) :
    easeRounded id airplaneMoveSpeed pos target = ease pos target := rfl

/-- C7, as the code has it. With the target held constant over the frame, along
each of the X and Y axes the airplane coordinate after the easing step of
`update` lies between its coordinate before the frame and the target, the
target excluded unless the coordinate was already there: it never moves away
from the target and never reaches or overshoots a target it had not reached,
and at the target it stays there. The same holds of the step as binary64
evaluates it, each operation rounded to nearest, from any binary64 coordinate;
strict progress is not promised there. -/
theorem update_easing_between (g : Game) :
    (update g).airplaneTargetX = g.airplaneTargetX ∧
    (update g).airplaneTargetY = g.airplaneTargetY ∧
    ((g.airplanePosition.x < g.airplaneTargetX →
        g.airplanePosition.x ≤ (update g).airplanePosition.x ∧
        (update g).airplanePosition.x < g.airplaneTargetX) ∧
      (g.airplaneTargetX < g.airplanePosition.x →
        g.airplaneTargetX < (update g).airplanePosition.x ∧
        (update g).airplanePosition.x ≤ g.airplanePosition.x) ∧
      (g.airplanePosition.x = g.airplaneTargetX →
        (update g).airplanePosition.x = g.airplaneTargetX)) ∧
    ((g.airplanePosition.y < g.airplaneTargetY →
        g.airplanePosition.y ≤ (update g).airplanePosition.y ∧
        (update g).airplanePosition.y < g.airplaneTargetY) ∧
      (g.airplaneTargetY < g.airplanePosition.y →
        g.airplaneTargetY < (update g).airplanePosition.y ∧
        (update g).airplanePosition.y ≤ g.airplanePosition.y) ∧
      (g.airplanePosition.y = g.airplaneTargetY →
        (update g).airplanePosition.y = g.airplaneTargetY)) ∧
    (∀ pos target : ℚ, isDouble pos →
      (pos < target →
        pos ≤ easeRounded roundDouble airplaneMoveSpeedDouble pos target ∧
        easeRounded roundDouble airplaneMoveSpeedDouble pos target < target) ∧
      (target < pos →
        target < easeRounded roundDouble airplaneMoveSpeedDouble pos target ∧
        easeRounded roundDouble airplaneMoveSpeedDouble pos target ≤ pos) ∧
      (pos = target →
        easeRounded roundDouble airplaneMoveSpeedDouble pos target = target)) := by
  have hx := easeRounded_between id (fun _ => True) (fun x _ _ => by simp) trivial
    airplaneMoveSpeed (by norm_num [airplaneMoveSpeed]) (by norm_num [airplaneMoveSpeed])
    g.airplanePosition.x g.airplaneTargetX trivial
  have hy := easeRounded_between id (fun _ => True) (fun x _ _ => by simp) trivial
    airplaneMoveSpeed (by norm_num [airplaneMoveSpeed]) (by norm_num [airplaneMoveSpeed])
    g.airplanePosition.y g.airplaneTargetY trivial
  refine ⟨rfl, rfl, hx, hy, ?_⟩
  intro pos target hp
  exact easeRounded_between roundDouble isDouble roundDouble_nearest isDouble_zero
    airplaneMoveSpeedDouble (by norm_num [airplaneMoveSpeedDouble])
    (by norm_num [airplaneMoveSpeedDouble]) pos target hp

/-- C7, at concrete frames: after a drag that set the target to `(3, 4)`, the
first frame moves the airplane from 0 to a point below the target on both
axes without moving it back; and the binary64 step from 0 toward 3 lands in
`[0, 3)`. -/
theorem update_easing_between_witness :
    ((0 : ℚ) ≤ (update (onTouchMove (onTouchStart (init zeroRand) 0 0) 100
        (-100))).airplanePosition.x ∧
      (update (onTouchMove (onTouchStart (init zeroRand) 0 0) 100
        (-100))).airplanePosition.x < 3) ∧
    ((0 : ℚ) ≤ (update (onTouchMove (onTouchStart (init zeroRand) 0 0) 100
        (-100))).airplanePosition.y ∧
      (update (onTouchMove (onTouchStart (init zeroRand) 0 0) 100
        (-100))).airplanePosition.y < 4) ∧
    (isDouble 0 ∧ (0 : ℚ) ≤ easeRounded roundDouble airplaneMoveSpeedDouble 0 3 ∧
      easeRounded roundDouble airplaneMoveSpeedDouble 0 3 < 3) := by
  have hx : (onTouchMove (onTouchStart (init zeroRand) 0 0) 100 (-100)).airplaneTargetX = 3 := by
    rw [onTouchMove_dragging _ _ _ rfl]
    simp only [onTouchStart, init, maxMin, sensitivityX]
    norm_num
  have hy : (onTouchMove (onTouchStart (init zeroRand) 0 0) 100 (-100)).airplaneTargetY = 4 := by
    rw [onTouchMove_dragging _ _ _ rfl]
    simp only [onTouchStart, init, maxMin, sensitivityY]
    norm_num
  have hpx : (onTouchMove (onTouchStart (init zeroRand) 0 0) 100 (-100)).airplanePosition.x = 0 := by
    rw [onTouchMove_dragging _ _ _ rfl]; rfl
  have hpy : (onTouchMove (onTouchStart (init zeroRand) 0 0) 100 (-100)).airplanePosition.y = 0 := by
    rw [onTouchMove_dragging _ _ _ rfl]; rfl
  have h := update_easing_between (onTouchMove (onTouchStart (init zeroRand) 0 0) 100 (-100))
  rw [hx, hy, hpx, hpy] at h
  exact ⟨h.2.2.1.1 (by norm_num), h.2.2.2.1.1 (by norm_num),
    isDouble_zero, (h.2.2.2.2 0 3 isDouble_zero).1 (by norm_num)⟩

/-- C7 as stated fails: in the first frame after start-up the airplane is at
its target (both 0), and after the easing step it is still at 0, which is not
strictly between 0 and 0. -/
theorem update_easing_at_rest_not_between :
    (init zeroRand).airplanePosition.x = 0 ∧ (init zeroRand).airplaneTargetX = 0 ∧
    (update (init zeroRand)).airplanePosition.x = 0 ∧
    ¬ strictlyBetween (update (init zeroRand)).airplanePosition.x
        (init zeroRand).airplanePosition.x (init zeroRand).airplaneTargetX := by
  have h : (update (init zeroRand)).airplanePosition.x = 0 := by
    show ease 0 0 = 0
    exact ease_self 0
  refine ⟨rfl, rfl, h, ?_⟩
  rw [h]
  show ¬ strictlyBetween 0 0 0
  unfold strictlyBetween
  rintro (⟨h1, _⟩ | ⟨h1, _⟩) <;> exact lt_irrefl _ h1

/-! ## Start-up and reachable states -/

/-- The pool built by `createRings`: ring `j` of the loop started at index `i`
is Unpassed, has radius 4 and sits at `z = -50 - 40 * (i + j)`. -/
theorem createRingsFrom_getElem? (i n : ℕ) (rnd : Rand) (j : ℕ) (rd : RingData)
    (h : (createRingsFrom i n rnd).1[j]? = some rd) :
    rd.mesh.position.z = -50 - 40 * ((i : ℚ) + (j : ℚ)) ∧ rd.passed = false ∧
      rd.mesh.radius = 4 := by
  induction n generalizing i rnd j with
  | zero => simp [createRingsFrom] at h
  | succ n ih =>
    cases j with
    | zero =>
      simp only [createRingsFrom, List.getElem?_cons_zero, Option.some.injEq] at h
      subst h
      refine ⟨?_, rfl, rfl⟩
      simp only [positionRing, ringSpacing]
      push_cast
      ring
    | succ j =>
      simp only [createRingsFrom, List.getElem?_cons_succ] at h
      obtain ⟨hz, hp, hr⟩ := ih (i + 1) _ j h
      refine ⟨?_, hp, hr⟩
      rw [hz]
      push_cast
      ring

theorem createRingsFrom_length (i n : ℕ) (rnd : Rand) :
    (createRingsFrom i n rnd).1.length = n := by
  induction n generalizing i rnd with
  | zero => rfl
  | succ n ih => simp only [createRingsFrom, List.length_cons, ih]

/-- A ring out of reach of both tests is returned unchanged by the loop body. -/
theorem ringStep_fixed (p c : Vec3) (len : ℕ) (rd : RingData) (s : ℤ) (r : Rand)
    (hz : ¬ |p.z - rd.mesh.position.z| < 2) (hr : ¬ recycleTest c rd) :
    ringStep p c len rd s r = (rd, s, r) := by
  unfold recycleTest at hr
  unfold ringStep collisionStep
  simp only [if_neg hr, if_neg (fun h : rd.passed = false ∧ _ => hz h.2)]

/-- A pool out of reach of both tests is returned unchanged by the loop. -/
theorem forEachRing_fixed (p c : Vec3) (len : ℕ) (rings : List RingData) (s : ℤ) (r : Rand)
    (h : ∀ rd ∈ rings, ¬ |p.z - rd.mesh.position.z| < 2 ∧ ¬ recycleTest c rd) :
    forEachRing p c len rings s r = (rings, s, r) := by
  induction rings generalizing s r with
  | nil => rfl
  | cons rd rest ih =>
    have h0 := h rd (List.mem_cons_self _ _)
    have hrest := ih s r (fun x hx => h x (List.mem_cons_of_mem _ hx))
    simp only [forEachRing, ringStep_fixed p c len rd s r h0.1 h0.2, hrest]

/-- Every ring of the start-up pool is at `z ≤ -50`. -/
theorem createRings_far (rnd : Rand) (rd : RingData) (h : rd ∈ (createRings rnd).1) :
    rd.mesh.position.z ≤ -50 := by
  obtain ⟨j, hj⟩ := List.getElem?_of_mem h
  have hz := (createRingsFrom_getElem? 0 numberOfRings rnd j rd hj).1
  rw [hz]
  have : (0 : ℚ) ≤ (j : ℚ) := Nat.cast_nonneg j
  push_cast
  linarith

theorem startupInvariant_init (rnd : Rand) : StartupInvariant rnd (init rnd) := by
  refine ⟨rfl, rfl, rfl, rfl, ?_, ?_⟩ <;> simp [init]

theorem startupInvariant_update (rnd : Rand) (g : Game) (h : StartupInvariant rnd g) :
    StartupInvariant rnd (update g) := by
  obtain ⟨hz, hc, hs, hr, hx, hy⟩ := h
  have hfix : forEachRing (easedPosition g) g.cameraPosition g.rings.length g.rings g.score g.rng
      = (g.rings, g.score, g.rng) := by
    apply forEachRing_fixed
    intro rd hrd
    rw [hr] at hrd
    have hfar := createRings_far rnd rd hrd
    have hpz : (easedPosition g).z = 0 := hz
    constructor
    · rw [hpz, abs_lt]
      rintro ⟨_, h2⟩
      linarith
    · unfold recycleTest
      rw [hc]
      show ¬ rd.mesh.position.z > 15 + 10
      linarith
  refine ⟨hz, hc, ?_, ?_, hx, hy⟩
  · show (forEachRing (easedPosition g) g.cameraPosition g.rings.length g.rings g.score g.rng).2.1 = 0
    rw [hfix]; exact hs
  · rw [update_rings, hfix]; exact hr

theorem startupInvariant_onTouchMove (rnd : Rand) (g : Game) (x y : ℚ)
    (h : StartupInvariant rnd g) : StartupInvariant rnd (onTouchMove g x y) := by
  cases ht : g.isTouching
  · rw [onTouchMove_idle g x y ht]; exact h
  · rw [onTouchMove_dragging g x y ht]
    obtain ⟨hz, hc, hs, hr, _, _⟩ := h
    exact ⟨hz, hc, hs, hr, maxMin_mem _ _ _ (by norm_num), maxMin_mem _ _ _ (by norm_num)⟩

theorem startupInvariant_step (rnd : Rand) (g : Game) (e : Event)
    (h : StartupInvariant rnd g) : StartupInvariant rnd (step g e) := by
  cases e with
  | frame => exact startupInvariant_update rnd g h
  | touchStart x y => exact h
  | touchMove x y => exact startupInvariant_onTouchMove rnd g x y h
  | touchEnd => exact h

theorem startupInvariant_run (rnd : Rand) (events : List Event) (g : Game)
    (h : StartupInvariant rnd g) : StartupInvariant rnd (run g events) := by
  induction events generalizing g with
  | nil => exact h
  | cons e es ih => exact ih (step g e) (startupInvariant_step rnd g e h)

/-- C10. In every state reachable from start-up by frames and pointer events
the airplane is at z = 0, the camera at z = 15, the pool has 15 rings, ring `i`
is at its start-up `z = -50 - 40 * i` (at most -50) and is Unpassed, neither
the collision test nor the recycle test succeeds for any ring, and the score
is 0. -/
theorem reachable_nothing_scores (g : Game) (h : Reachable g) :
    g.airplanePosition.z = 0 ∧ g.cameraPosition.z = 15 ∧ g.score = 0 ∧
    g.rings.length = 15 ∧
    ∀ (i : ℕ) (rd : RingData), g.rings[i]? = some rd →
      rd.mesh.position.z = -50 - 40 * (i : ℚ) ∧ rd.mesh.position.z ≤ -50 ∧
      rd.passed = false ∧
      ¬ |g.airplanePosition.z - rd.mesh.position.z| < 2 ∧
      ¬ collisionTest (easedPosition g) rd ∧
      ¬ recycleTest g.cameraPosition rd := by
  obtain ⟨rnd, events, rfl⟩ := h
  obtain ⟨hz, hc, hs, hr, _, _⟩ :=
    startupInvariant_run rnd events (init rnd) (startupInvariant_init rnd)
  refine ⟨hz, by rw [hc], hs, ?_, ?_⟩
  · rw [hr]; exact createRingsFrom_length 0 numberOfRings rnd
  · intro i rd hi
    rw [hr] at hi
    obtain ⟨hzi, hp, _⟩ := createRingsFrom_getElem? 0 numberOfRings rnd i rd hi
    have hfar : rd.mesh.position.z ≤ -50 := createRings_far rnd rd (List.getElem?_mem hi)
    have hnear : ¬ |(0 : ℚ) - rd.mesh.position.z| < 2 := by
      rw [abs_lt]; rintro ⟨_, h2⟩; linarith
    refine ⟨?_, hfar, hp, ?_, ?_, ?_⟩
    · rw [hzi]; push_cast; ring
    · rw [hz]; exact hnear
    · intro hcol
      have hpz : (easedPosition (run (init rnd) events)).z = 0 := hz
      have := hcol.1
      rw [hpz] at this
      exact hnear this
    · unfold recycleTest
      rw [hc]
      show ¬ rd.mesh.position.z > 15 + 10
      linarith

/-- C10, at a concrete run: start-up, a drag to the right, then two frames. -/
theorem reachable_nothing_scores_witness :
    Reachable (run (init zeroRand)
      [Event.touchStart 0 0, Event.touchMove 100 0, Event.frame, Event.frame]) ∧
    (run (init zeroRand)
      [Event.touchStart 0 0, Event.touchMove 100 0, Event.frame, Event.frame]).score = 0 ∧
    (run (init zeroRand)
      [Event.touchStart 0 0, Event.touchMove 100 0, Event.frame, Event.frame]).rings.length = 15 :=
  have hr : Reachable (run (init zeroRand)
      [Event.touchStart 0 0, Event.touchMove 100 0, Event.frame, Event.frame]) :=
    ⟨zeroRand, _, rfl⟩
  ⟨hr, (reachable_nothing_scores _ hr).2.2.1, (reachable_nothing_scores _ hr).2.2.2.1⟩

/-- C6. The target offset is always clamped: after a pointer-move handled while
dragging, `targetX` is in `[-15, 15]` and `targetY` in `[-5, 20]`, whatever the
prior state; `onTouchStart`, `onTouchEnd` and `update` do not write the target;
and both bounds hold in every state reachable from start-up. -/
theorem target_always_clamped :
    (∀ (g : Game) (x y : ℚ), g.isTouching = true →
      (-15 ≤ (onTouchMove g x y).airplaneTargetX ∧ (onTouchMove g x y).airplaneTargetX ≤ 15) ∧
      (-5 ≤ (onTouchMove g x y).airplaneTargetY ∧ (onTouchMove g x y).airplaneTargetY ≤ 20)) ∧
    (init zeroRand).airplaneTargetX = 0 ∧ (init zeroRand).airplaneTargetY = 0 ∧
    (∀ (g : Game) (x y : ℚ),
      (onTouchStart g x y).airplaneTargetX = g.airplaneTargetX ∧
      (onTouchStart g x y).airplaneTargetY = g.airplaneTargetY ∧
      (onTouchEnd g).airplaneTargetX = g.airplaneTargetX ∧
      (onTouchEnd g).airplaneTargetY = g.airplaneTargetY ∧
      (update g).airplaneTargetX = g.airplaneTargetX ∧
      (update g).airplaneTargetY = g.airplaneTargetY) ∧
    (∀ g : Game, Reachable g →
      (-15 ≤ g.airplaneTargetX ∧ g.airplaneTargetX ≤ 15) ∧
      (-5 ≤ g.airplaneTargetY ∧ g.airplaneTargetY ≤ 20)) := by
  refine ⟨?_, rfl, rfl, ?_, ?_⟩
  · intro g x y h
    rw [onTouchMove_dragging g x y h]
    exact ⟨maxMin_mem _ _ _ (by norm_num), maxMin_mem _ _ _ (by norm_num)⟩
  · intro g x y
    exact ⟨rfl, rfl, rfl, rfl, rfl, rfl⟩
  · rintro g ⟨rnd, events, rfl⟩
    obtain ⟨_, _, _, _, hx, hy⟩ :=
      startupInvariant_run rnd events (init rnd) (startupInvariant_init rnd)
    exact ⟨hx, hy⟩

/-- C6, at a concrete run: a drag of 1000 px right and 1000 px up, from a state
whose target was already far outside the limits, and from start-up. -/
theorem target_always_clamped_witness :
    (onTouchMove { onTouchStart (init zeroRand) 0 0 with airplaneTargetX := 99 }
        1000 (-1000)).airplaneTargetX ≤ 15 ∧
    (run (init zeroRand) [Event.touchStart 0 0, Event.touchMove 1000 (-1000),
        Event.frame]).airplaneTargetY ≤ 20 :=
  ⟨(target_always_clamped.1
      { onTouchStart (init zeroRand) 0 0 with airplaneTargetX := 99 } 1000 (-1000) rfl).1.2,
   (target_always_clamped.2.2.2.2 _ ⟨zeroRand, _, rfl⟩).2.2⟩

/-! ## Scoring over a run -/

theorem frameGain_none (g : Game) (i : ℕ) (h : g.rings[i]? = none) : frameGain g i = 0 := by
  unfold frameGain; rw [h]

theorem frameGain_some (g : Game) (i : ℕ) (rd : RingData) (h : g.rings[i]? = some rd) :
    frameGain g i = gain (easedPosition g) rd := by
  unfold frameGain; rw [h]
  simp only [ringStep_score, zero_add]

/-- The gains of the indices of a pool add up to the gains of its rings. -/
theorem sum_range_gain (p : Vec3) (l : List RingData) :
    (∑ j in Finset.range l.length, ((l[j]?).map (gain p)).getD 0) = (l.map (gain p)).sum := by
  induction l with
  | nil => simp
  | cons rd rest ih =>
    rw [List.length_cons, Finset.sum_range_succ']
    simp only [List.getElem?_cons_succ, List.getElem?_cons_zero, Option.map_some',
      Option.getD_some, List.map_cons, List.sum_cons]
    rw [ih]; ring

theorem frameGain_eq_getD (g : Game) (j : ℕ) :
    frameGain g j = ((g.rings[j]?).map (gain (easedPosition g))).getD 0 := by
  cases h : g.rings[j]? with
  | none => rw [frameGain_none g j h]; rfl
  | some rd => rw [frameGain_some g j rd h]; rfl

/-- A frame adds to the score the frame gains of the indices of the pool. -/
theorem update_score_sum (g : Game) :
    (update g).score = g.score + ∑ j in Finset.range g.rings.length, frameGain g j := by
  rw [update_score, ← sum_range_gain]
  congr 1
  apply Finset.sum_congr rfl
  intro j _
  exact (frameGain_eq_getD g j).symm

theorem step_rings_length (g : Game) (e : Event) : (step g e).rings.length = g.rings.length := by
  cases e with
  | frame => exact update_rings_length g
  | touchStart x y => rfl
  | touchMove x y =>
    show (onTouchMove g x y).rings.length = _
    unfold onTouchMove; split <;> rfl
  | touchEnd => rfl

/-- An event adds to the score the event gains of the indices of the pool. -/
theorem step_score_sum (g : Game) (e : Event) :
    (step g e).score = g.score + ∑ j in Finset.range g.rings.length, eventGain g j e := by
  cases e with
  | frame => exact update_score_sum g
  | touchStart x y => simp [step, eventGain, onTouchStart]
  | touchMove x y =>
    have : (onTouchMove g x y).score = g.score := by
      unfold onTouchMove; split <;> rfl
    simp [step, eventGain, this]
  | touchEnd => simp [step, eventGain, onTouchEnd]

/-- A run adds to the score the total gains of the indices of the pool. -/
theorem run_score_sum (g : Game) (events : List Event) :
    (run g events).score
      = g.score + ∑ j in Finset.range g.rings.length, totalGain g j events := by
  induction events generalizing g with
  | nil => simp [run, totalGain]
  | cons e es ih =>
    show (run (step g e) es).score = _
    rw [ih (step g e), step_score_sum, step_rings_length]
    simp only [totalGain, Finset.sum_add_distrib]
    ring

theorem eventGain_nonneg (g : Game) (i : ℕ) (e : Event) : 0 ≤ eventGain g i e := by
  cases e with
  | frame =>
    show 0 ≤ frameGain g i
    rw [frameGain_eq_getD]
    cases g.rings[i]? with
    | none => exact le_refl _
    | some rd => exact gain_nonneg _ _
  | touchStart x y => exact le_refl _
  | touchMove x y => exact le_refl _
  | touchEnd => exact le_refl _

/-- A Passed ring that is not recycled is still Passed after the event. -/
theorem step_keeps_passed (g : Game) (i : ℕ) (e : Event)
    (hp : ∃ rd, g.rings[i]? = some rd ∧ rd.passed = true)
    (hn : e = Event.frame → ∀ rd, g.rings[i]? = some rd → ¬ recycleTest g.cameraPosition rd) :
    ∃ rd, (step g e).rings[i]? = some rd ∧ rd.passed = true := by
  obtain ⟨rd, hrd, hpass⟩ := hp
  cases e with
  | frame =>
    have hk := hn rfl rd hrd
    obtain ⟨s', k, hs⟩ := forEachRing_getElem? (easedPosition g) g.cameraPosition
      g.rings.length g.rings g.score g.rng i rd hrd
    refine ⟨_, hs, ?_⟩
    rw [ringStep_kept _ _ _ _ _ _ hk]
    exact (collisionStep_snd _ _ _).mpr (Or.inl hpass)
  | touchStart x y => exact ⟨rd, hrd, hpass⟩
  | touchMove x y =>
    have : (onTouchMove g x y).rings = g.rings := by
      unfold onTouchMove; split <;> rfl
    exact ⟨rd, by show (onTouchMove g x y).rings[i]? = _; rw [this]; exact hrd, hpass⟩
  | touchEnd => exact ⟨rd, hrd, hpass⟩

/-- A ring that scores in a frame and is not recycled in it is Passed after it. -/
theorem update_passes_scorer (g : Game) (i : ℕ) (rd : RingData) (hrd : g.rings[i]? = some rd)
    (hsc : scores (easedPosition g) rd) (hk : ¬ recycleTest g.cameraPosition rd) :
    ∃ rd', (update g).rings[i]? = some rd' ∧ rd'.passed = true := by
  obtain ⟨s', k, hs⟩ := forEachRing_getElem? (easedPosition g) g.cameraPosition
    g.rings.length g.rings g.score g.rng i rd hrd
  refine ⟨_, hs, ?_⟩
  rw [ringStep_kept _ _ _ _ _ _ hk]
  exact (collisionStep_snd _ _ _).mpr (Or.inr hsc.2)

/-- Once Passed, a ring adds nothing over a run in which it is never recycled. -/
theorem totalGain_of_passed (i : ℕ) (events : List Event) (g : Game)
    (hp : ∃ rd, g.rings[i]? = some rd ∧ rd.passed = true)
    (hn : neverRecycled g i events) : totalGain g i events = 0 := by
  induction events generalizing g with
  | nil => rfl
  | cons e es ih =>
    have hrest := ih (step g e) (step_keeps_passed g i e hp hn.1) hn.2
    have hnow : eventGain g i e = 0 := by
      obtain ⟨rd, hrd, hpass⟩ := hp
      cases e with
      | frame =>
        show frameGain g i = 0
        rw [frameGain_some g i rd hrd, gain_of_passed _ _ hpass]
      | touchStart x y => rfl
      | touchMove x y => rfl
      | touchEnd => rfl
    simp only [totalGain, hnow, hrest, add_zero]

/-- A ring adds at most one over a run in which it is never recycled. -/
theorem totalGain_le_one (i : ℕ) (events : List Event) (g : Game)
    (hn : neverRecycled g i events) : totalGain g i events ≤ 1 := by
  induction events generalizing g with
  | nil => show (0 : ℤ) ≤ 1; norm_num
  | cons e es ih =>
    have hrest := ih (step g e) hn.2
    cases e with
    | frame =>
      show frameGain g i + totalGain (update g) i es ≤ 1
      cases hrd : g.rings[i]? with
      | none => rw [frameGain_none g i hrd]; simpa using hrest
      | some rd =>
        rw [frameGain_some g i rd hrd]
        by_cases hsc : scores (easedPosition g) rd
        · have hp := update_passes_scorer g i rd hrd hsc (hn.1 rfl rd hrd)
          have h0 : totalGain (update g) i es = 0 := totalGain_of_passed i es (update g) hp hn.2
          rw [h0, add_zero]
          exact gain_le_one _ _
        · have : gain (easedPosition g) rd = 0 := by unfold gain; rw [if_neg hsc]
          rw [this, zero_add]; exact hrest
    | touchStart x y => simpa [totalGain, eventGain] using hrest
    | touchMove x y => simpa [totalGain, eventGain] using hrest
    | touchEnd => simpa [totalGain, eventGain] using hrest

theorem totalGain_nonneg (i : ℕ) (events : List Event) (g : Game) :
    0 ≤ totalGain g i events := by
  induction events generalizing g with
  | nil => exact le_refl _
  | cons e es ih => exact add_nonneg (eventGain_nonneg g i e) (ih (step g e))

theorem neverRecycled_append (i : ℕ) (pre post : List Event) (g : Game)
    (hn : neverRecycled g i (pre ++ post)) : neverRecycled (run g pre) i post := by
  induction pre generalizing g with
  | nil => exact hn
  | cons e es ih => exact ih (step g e) hn.2

/-- C3. No double-scoring between recycles: over any run of frames and pointer
events during which the recycle test of ring `i` never fires, ring `i` adds at
most one to the score; once it is Passed, the rest of the run adds nothing on
its behalf; and the score after the run is the score before it plus what the
rings of the pool added. -/
theorem no_double_scoring (g : Game) (i : ℕ) (events : List Event)
    (h : neverRecycled g i events) :
    0 ≤ totalGain g i events ∧ totalGain g i events ≤ 1 ∧
    (∀ pre post : List Event, events = pre ++ post →
      (∃ rd, (run g pre).rings[i]? = some rd ∧ rd.passed = true) →
        totalGain (run g pre) i post = 0) ∧
    (run g events).score
      = g.score + ∑ j in Finset.range g.rings.length, totalGain g j events := by
  refine ⟨totalGain_nonneg i events g, totalGain_le_one i events g h, ?_, run_score_sum g events⟩
  intro pre post he hp
  subst he
  exact totalGain_of_passed i post (run g pre) hp (neverRecycled_append i pre post g h)

/-- C3, at a concrete run: the airplane at rest inside an Unpassed ring of
radius 4 for two frames; the ring is never recycled and adds exactly one. -/
theorem no_double_scoring_witness :
    neverRecycled (restGame [⟨⟨⟨0, 0, 0⟩, ⟨0, 0, 0⟩, 4, none⟩, false⟩] 15 0) 0
        [Event.frame, Event.frame] ∧
    frameGain (restGame [⟨⟨⟨0, 0, 0⟩, ⟨0, 0, 0⟩, 4, none⟩, false⟩] 15 0) 0 = 1 ∧
    totalGain (restGame [⟨⟨⟨0, 0, 0⟩, ⟨0, 0, 0⟩, 4, none⟩, false⟩] 15 0) 0
        [Event.frame, Event.frame] ≤ 1 := by
  have h0 : (restGame [⟨⟨⟨0, 0, 0⟩, ⟨0, 0, 0⟩, 4, none⟩, false⟩] 15 0).rings[0]?
      = some ⟨⟨⟨0, 0, 0⟩, ⟨0, 0, 0⟩, 4, none⟩, false⟩ := rfl
  have hk : ¬ recycleTest (restGame [⟨⟨⟨0, 0, 0⟩, ⟨0, 0, 0⟩, 4, none⟩, false⟩] 15 0).cameraPosition
      ⟨⟨⟨0, 0, 0⟩, ⟨0, 0, 0⟩, 4, none⟩, false⟩ := by
    simp only [recycleTest, restGame]; norm_num
  have hn : neverRecycled (restGame [⟨⟨⟨0, 0, 0⟩, ⟨0, 0, 0⟩, 4, none⟩, false⟩] 15 0) 0
      [Event.frame, Event.frame] := by
    refine ⟨fun _ rd hrd => ?_, fun _ rd hrd => ?_, trivial⟩
    · rw [h0] at hrd
      simp only [Option.some.injEq] at hrd
      subst hrd
      exact hk
    · have hm := (update_ring_kept _ 0 _ rd h0 hrd hk).1
      unfold recycleTest
      rw [hm]
      simp only [step, update_cameraPosition, restGame]
      norm_num
  have hg : frameGain (restGame [⟨⟨⟨0, 0, 0⟩, ⟨0, 0, 0⟩, 4, none⟩, false⟩] 15 0) 0 = 1 := by
    rw [frameGain_some _ 0 _ h0, gain_eq_one_iff]
    simp only [scores, collisionTest, distanceLt, distanceToSquared, easedPosition, ease, restGame]
    norm_num
  exact ⟨hn, hg, (no_double_scoring _ 0 _ hn).2.1⟩

/-! ## The pass flag and the recycled Z on the states the game can be in -/

/-- In a state reachable from start-up every ring is Unpassed and no recycle
test fires. -/
theorem reachable_ring_idle (g : Game) (h : Reachable g) (i : ℕ) (rd : RingData)
    (hrd : g.rings[i]? = some rd) :
    rd.passed = false ∧ ¬ recycleTest g.cameraPosition rd := by
  obtain ⟨rnd, events, rfl⟩ := h
  obtain ⟨_, hc, _, hr, _, _⟩ :=
    startupInvariant_run rnd events (init rnd) (startupInvariant_init rnd)
  rw [hr] at hrd
  refine ⟨(createRingsFrom_getElem? 0 numberOfRings rnd i rd hrd).2.1, ?_⟩
  have hfar := createRings_far rnd rd (List.getElem?_mem hrd)
  unfold recycleTest
  rw [hc]
  show ¬ rd.mesh.position.z > 15 + 10
  linarith

/-- A frame run from a state reachable from start-up leaves the pool as it is. -/
theorem reachable_update_rings (g : Game) (h : Reachable g) : (update g).rings = g.rings := by
  obtain ⟨rnd, events, rfl⟩ := h
  have hinv := startupInvariant_run rnd events (init rnd) (startupInvariant_init rnd)
  rw [(startupInvariant_update rnd _ hinv).2.2.2.1, hinv.2.2.2.1]

/-- The first ring of the start-up pool drawn from the all-zero stream. -/
theorem init_zeroRand_first_ring :
    (init zeroRand).rings[0]?
      = some ⟨⟨⟨-10, 2, -50⟩, ⟨0, 0, 0⟩, 4, some 0xff0000⟩, false⟩ := by
  show (createRingsFrom 0 (14 + 1) zeroRand).1[0]? = _
  simp [createRingsFrom, positionRing, zeroRand, Rand.drop, colorAt, ringColors, ringSpacing]

/-- C2. After a frame run from a state the game can be in (any state reachable
from start-up, and more generally any state in which the ring is Unpassed when
the frame starts), a ring's passed flag is true only if, in the frame that
just ran, |airplane.z - ring.z| < 2 and its distance to the airplane was less
than its radius; when that test failed the flag is false, and it is false
immediately after the ring is recycled. -/
theorem update_passed_only_after_collision (g : Game) (i : ℕ) (rd rd' : RingData)
    (h : g.rings[i]? = some rd) (h' : (update g).rings[i]? = some rd')
    (hs : Reachable g ∨ rd.passed = false) :
    (rd'.passed = true →
      |(easedPosition g).z - rd.mesh.position.z| < 2 ∧
        distanceLt (easedPosition g) rd.mesh.position rd.mesh.radius) ∧
    (¬ (|(easedPosition g).z - rd.mesh.position.z| < 2 ∧
        distanceLt (easedPosition g) rd.mesh.position rd.mesh.radius) → rd'.passed = false) ∧
    (recycleTest g.cameraPosition rd → rd'.passed = false) := by
  have hu : rd.passed = false := by
    rcases hs with hreach | hu
    · exact (reachable_ring_idle g hreach i rd h).1
    · exact hu
  obtain ⟨hiff, hrec⟩ := update_passed_iff g i rd rd' h h'
  have honly : rd'.passed = true →
      |(easedPosition g).z - rd.mesh.position.z| < 2 ∧
        distanceLt (easedPosition g) rd.mesh.position rd.mesh.radius := by
    intro ht
    rcases (hiff.mp ht).2 with hp | hc
    · rw [hu] at hp; exact Bool.noConfusion hp
    · exact hc
  refine ⟨honly, ?_, hrec⟩
  intro hn
  cases hp : rd'.passed
  · rfl
  · exact absurd (honly hp) hn

/-- C2, at two concrete frames: the first frame after start-up leaves ring 0
Unpassed, and a frame with the airplane at rest inside an Unpassed ring of
radius 4 leaves that ring Passed, its collision test having succeeded. -/
theorem update_passed_only_after_collision_witness :
    (Reachable (init zeroRand) ∧
      (init zeroRand).rings[0]?
        = some ⟨⟨⟨-10, 2, -50⟩, ⟨0, 0, 0⟩, 4, some 0xff0000⟩, false⟩ ∧
      (update (init zeroRand)).rings[0]?
        = some ⟨⟨⟨-10, 2, -50⟩, ⟨0, 0, 0⟩, 4, some 0xff0000⟩, false⟩) ∧
    ((restGame [⟨⟨⟨0, 0, 0⟩, ⟨0, 0, 0⟩, 4, none⟩, false⟩] 15 0).rings[0]?
        = some ⟨⟨⟨0, 0, 0⟩, ⟨0, 0, 0⟩, 4, none⟩, false⟩ ∧
      (update (restGame [⟨⟨⟨0, 0, 0⟩, ⟨0, 0, 0⟩, 4, none⟩, false⟩] 15 0)).rings[0]?
        = some ⟨⟨⟨0, 0, 0⟩, ⟨0, 0, 0⟩, 4, none⟩, true⟩ ∧
      |(easedPosition (restGame [⟨⟨⟨0, 0, 0⟩, ⟨0, 0, 0⟩, 4, none⟩, false⟩] 15 0)).z - 0| < 2 ∧
      distanceLt (easedPosition (restGame [⟨⟨⟨0, 0, 0⟩, ⟨0, 0, 0⟩, 4, none⟩, false⟩] 15 0))
        ⟨0, 0, 0⟩ 4) := by
  have hr : Reachable (init zeroRand) := ⟨zeroRand, [], rfl⟩
  have a0 := init_zeroRand_first_ring
  have a1 : (update (init zeroRand)).rings[0]?
      = some ⟨⟨⟨-10, 2, -50⟩, ⟨0, 0, 0⟩, 4, some 0xff0000⟩, false⟩ := by
    rw [reachable_update_rings _ hr]; exact a0
  have b0 : (restGame [⟨⟨⟨0, 0, 0⟩, ⟨0, 0, 0⟩, 4, none⟩, false⟩] 15 0).rings[0]?
      = some ⟨⟨⟨0, 0, 0⟩, ⟨0, 0, 0⟩, 4, none⟩, false⟩ := rfl
  have b1 : (update (restGame [⟨⟨⟨0, 0, 0⟩, ⟨0, 0, 0⟩, 4, none⟩, false⟩] 15 0)).rings[0]?
      = some ⟨⟨⟨0, 0, 0⟩, ⟨0, 0, 0⟩, 4, none⟩, true⟩ := by
    simp [update, forEachRing, ringStep, collisionStep, restGame, distanceLt, distanceToSquared,
      easedPosition, ease]
    norm_num
  have hA := update_passed_only_after_collision _ 0 _ _ a0 a1 (Or.inl hr)
  have hB := update_passed_only_after_collision _ 0 _ _ b0 b1 (Or.inr rfl)
  exact ⟨⟨hr, a0, a1⟩, b0, b1, hB.1 rfl⟩

/-- C4. A ring that a frame recycles (its Z exceeds camera Z + 10) is given
Z = -40 * rings.length - 200, and this is strictly less than the Z of every
other ring of the pool, at that moment and at the end of the frame, in every
state reachable from start-up and in every state in which the other rings are
in the field (no further ahead than the front of the start-up field and not
themselves behind the recycle line). -/
theorem update_recycled_ahead_of_field (g : Game) (i : ℕ) (rd rd' : RingData)
    (h : g.rings[i]? = some rd) (h' : (update g).rings[i]? = some rd')
    (hr : recycleTest g.cameraPosition rd)
    (hf : Reachable g ∨
      ∀ (j : ℕ) (rdj : RingData), j ≠ i → g.rings[j]? = some rdj →
        inField g.rings.length g.cameraPosition rdj) :
    rd'.mesh.position.z = -40 * (g.rings.length : ℚ) - 200 ∧
    ∀ (j : ℕ) (rdj rdj' : RingData), j ≠ i →
      g.rings[j]? = some rdj → (update g).rings[j]? = some rdj' →
        rd'.mesh.position.z < rdj.mesh.position.z ∧
        rd'.mesh.position.z < rdj'.mesh.position.z := by
  have hz : rd'.mesh.position.z = -40 * (g.rings.length : ℚ) - 200 := by
    obtain ⟨k, hk⟩ := update_ring_recycled g i rd rd' h h' hr
    rw [hk]
    simp only [recycledZ, ringSpacing, ringSpawnDistance]
    ring
  refine ⟨hz, ?_⟩
  rcases hf with hreach | hfield
  · exact absurd hr (reachable_ring_idle g hreach i rd h).2
  · intro j rdj rdj' hji hj hj'
    obtain ⟨hfront, hkeep⟩ := hfield j rdj hji hj
    have hsame : rdj'.mesh = rdj.mesh := (update_ring_kept g j rdj rdj' hj hj' hkeep).1
    have hlt : rd'.mesh.position.z < rdj.mesh.position.z := by
      rw [hz]
      unfold fieldFrontZ ringSpacing at hfront
      linarith
    exact ⟨hlt, by rw [hsame]; exact hlt⟩

/-- C4, at a concrete frame: camera at z = 15, ring 0 at z = 26 (11 behind the
camera), rings 1 and 2 in the field at z = -90 and z = -130; ring 0 is recycled
to z = -320, ahead of both. -/
theorem update_recycled_ahead_of_field_witness :
    (restGame [⟨⟨⟨0, 5, 26⟩, ⟨0, 0, 0⟩, 4, none⟩, true⟩,
        ⟨⟨⟨3, 4, -90⟩, ⟨0, 0, 0⟩, 4, none⟩, false⟩,
        ⟨⟨⟨-2, 9, -130⟩, ⟨0, 0, 0⟩, 4, none⟩, false⟩] 15 0).rings[0]?
      = some ⟨⟨⟨0, 5, 26⟩, ⟨0, 0, 0⟩, 4, none⟩, true⟩ ∧
    (update (restGame [⟨⟨⟨0, 5, 26⟩, ⟨0, 0, 0⟩, 4, none⟩, true⟩,
        ⟨⟨⟨3, 4, -90⟩, ⟨0, 0, 0⟩, 4, none⟩, false⟩,
        ⟨⟨⟨-2, 9, -130⟩, ⟨0, 0, 0⟩, 4, none⟩, false⟩] 15 0)).rings
      = [⟨⟨⟨-10, 2, -320⟩, ⟨0, 0, 0⟩, 4, none⟩, false⟩,
         ⟨⟨⟨3, 4, -90⟩, ⟨0, 0, 0⟩, 4, none⟩, false⟩,
         ⟨⟨⟨-2, 9, -130⟩, ⟨0, 0, 0⟩, 4, none⟩, false⟩] ∧
    ((-320 : ℚ) < -90 ∧ (-320 : ℚ) < -130) := by
  have h0 : (restGame [⟨⟨⟨0, 5, 26⟩, ⟨0, 0, 0⟩, 4, none⟩, true⟩,
        ⟨⟨⟨3, 4, -90⟩, ⟨0, 0, 0⟩, 4, none⟩, false⟩,
        ⟨⟨⟨-2, 9, -130⟩, ⟨0, 0, 0⟩, 4, none⟩, false⟩] 15 0).rings[0]?
      = some ⟨⟨⟨0, 5, 26⟩, ⟨0, 0, 0⟩, 4, none⟩, true⟩ := rfl
  have hu : (update (restGame [⟨⟨⟨0, 5, 26⟩, ⟨0, 0, 0⟩, 4, none⟩, true⟩,
        ⟨⟨⟨3, 4, -90⟩, ⟨0, 0, 0⟩, 4, none⟩, false⟩,
        ⟨⟨⟨-2, 9, -130⟩, ⟨0, 0, 0⟩, 4, none⟩, false⟩] 15 0)).rings
      = [⟨⟨⟨-10, 2, -320⟩, ⟨0, 0, 0⟩, 4, none⟩, false⟩,
         ⟨⟨⟨3, 4, -90⟩, ⟨0, 0, 0⟩, 4, none⟩, false⟩,
         ⟨⟨⟨-2, 9, -130⟩, ⟨0, 0, 0⟩, 4, none⟩, false⟩] := by
    simp [update, forEachRing, ringStep, collisionStep, restGame, positionRing, zeroRand,
      Rand.drop, ringSpacing, ringSpawnDistance, easedPosition, ease, abs_lt]
    norm_num
  have hr : recycleTest (restGame [⟨⟨⟨0, 5, 26⟩, ⟨0, 0, 0⟩, 4, none⟩, true⟩,
        ⟨⟨⟨3, 4, -90⟩, ⟨0, 0, 0⟩, 4, none⟩, false⟩,
        ⟨⟨⟨-2, 9, -130⟩, ⟨0, 0, 0⟩, 4, none⟩, false⟩] 15 0).cameraPosition
      ⟨⟨⟨0, 5, 26⟩, ⟨0, 0, 0⟩, 4, none⟩, true⟩ := by
    simp only [recycleTest, restGame]; norm_num
  have hf : ∀ (j : ℕ) (rdj : RingData), j ≠ 0 →
      (restGame [⟨⟨⟨0, 5, 26⟩, ⟨0, 0, 0⟩, 4, none⟩, true⟩,
        ⟨⟨⟨3, 4, -90⟩, ⟨0, 0, 0⟩, 4, none⟩, false⟩,
        ⟨⟨⟨-2, 9, -130⟩, ⟨0, 0, 0⟩, 4, none⟩, false⟩] 15 0).rings[j]? = some rdj →
      inField (restGame [⟨⟨⟨0, 5, 26⟩, ⟨0, 0, 0⟩, 4, none⟩, true⟩,
        ⟨⟨⟨3, 4, -90⟩, ⟨0, 0, 0⟩, 4, none⟩, false⟩,
        ⟨⟨⟨-2, 9, -130⟩, ⟨0, 0, 0⟩, 4, none⟩, false⟩] 15 0).rings.length
        (restGame [⟨⟨⟨0, 5, 26⟩, ⟨0, 0, 0⟩, 4, none⟩, true⟩,
        ⟨⟨⟨3, 4, -90⟩, ⟨0, 0, 0⟩, 4, none⟩, false⟩,
        ⟨⟨⟨-2, 9, -130⟩, ⟨0, 0, 0⟩, 4, none⟩, false⟩] 15 0).cameraPosition rdj := by
    intro j rdj hj hrd
    match j, hj, hrd with
    | 0, hj, _ => exact absurd rfl hj
    | 1, _, hrd =>
      simp only [restGame, List.getElem?_cons_succ, List.getElem?_cons_zero,
        Option.some.injEq] at hrd
      subst hrd
      simp only [inField, fieldFrontZ, recycleTest, ringSpacing, restGame, List.length_cons,
        List.length_nil]
      norm_num
    | 2, _, hrd =>
      simp only [restGame, List.getElem?_cons_succ, List.getElem?_cons_zero,
        Option.some.injEq] at hrd
      subst hrd
      simp only [inField, fieldFrontZ, recycleTest, ringSpacing, restGame, List.length_cons,
        List.length_nil]
      norm_num
    | n + 3, _, hrd =>
      simp [restGame] at hrd
  have h0' : (update (restGame [⟨⟨⟨0, 5, 26⟩, ⟨0, 0, 0⟩, 4, none⟩, true⟩,
        ⟨⟨⟨3, 4, -90⟩, ⟨0, 0, 0⟩, 4, none⟩, false⟩,
        ⟨⟨⟨-2, 9, -130⟩, ⟨0, 0, 0⟩, 4, none⟩, false⟩] 15 0)).rings[0]?
      = some ⟨⟨⟨-10, 2, -320⟩, ⟨0, 0, 0⟩, 4, none⟩, false⟩ := by
    rw [hu]; rfl
  have hmain := (update_recycled_ahead_of_field _ 0 _ _ h0 h0' hr (Or.inr hf)).2
  have h1 := (hmain 1 ⟨⟨⟨3, 4, -90⟩, ⟨0, 0, 0⟩, 4, none⟩, false⟩
    ⟨⟨⟨3, 4, -90⟩, ⟨0, 0, 0⟩, 4, none⟩, false⟩ (by decide) rfl (by rw [hu]; rfl)).1
  have h2 := (hmain 2 ⟨⟨⟨-2, 9, -130⟩, ⟨0, 0, 0⟩, 4, none⟩, false⟩
    ⟨⟨⟨-2, 9, -130⟩, ⟨0, 0, 0⟩, 4, none⟩, false⟩ (by decide) rfl (by rw [hu]; rfl)).1
  exact ⟨h0, hu, h1, h2⟩

end Fly
